import Mathlib

/-!
# Verification of the Taxonium lineage hierarchy engine

A shallow embedding of the lineage utilities of this repository
(`parseLineageName`, `organizeLineageHierarchy`, `getLineageLevel`,
`isPangoLineage`, `extractLineageRoot`, `generatePangoLineageColor` from the
lineage-utility module, and `checkLineageRelationship` from the category list
component), together with theorems settling the frozen claims about them.

Modelling conventions:
* JavaScript strings are `List Char`; `charCodeAt` is `Char.toNat` (all names
  of interest are BMP text, where the UTF-16 code unit equals the code point).
* A JavaScript object used as a string-keyed dictionary is an insertion-ordered
  association list (`List NodeData` keyed by `name`).  Prototype-chain
  artifacts of JS objects (e.g. keys such as "constructor") and the
  integer-like-key reordering of `Object.values` are not modelled; no claim
  depends on them.
* JavaScript numbers are exact: observation counts are `Int`, and the real
  arithmetic of the colour pipeline is exact rational arithmetic via the
  kernel-computable fraction type `Fr` below.  All comparisons the colour code
  makes are far from the rounding error of binary64, so exact rationals decide
  every branch the way the JS floats do.
* `Array.prototype.sort` (guaranteed stable) is modelled by a stable insertion
  sort with the same comparator semantics.
* Recursion over the built rose trees is expressed with an explicit fuel
  argument so that every definition computes by kernel reduction; the fuel
  passed by `organizeLineageHierarchy` exceeds the depth of any tree it builds
  (each child has exactly one more dot-segment than its parent, and every node
  of a chain is a distinct key of the map).
-/

/-! ## An exact, kernel-computable fraction type

`Rat` normalisation does not reduce in the kernel, so the colour pipeline is
embedded over unreduced fractions with a positive denominator.  `Fr.val` maps a
fraction to `ℚ`; every operation is proved to commute with `val`, so symbolic
reasoning happens in `ℚ` while concrete evaluation happens by `decide`. -/

structure Fr where
  num : Int
  den : Int
  dpos : 0 < den

namespace Fr

/-- The rational value of a fraction. -/
noncomputable def val (x : Fr) : ℚ := (x.num : ℚ) / (x.den : ℚ)

/-- Embed an integer. -/
def ofInt (i : Int) : Fr := ⟨i, 1, Int.zero_lt_one⟩

/-- A literal fraction `n / d` for a positive literal denominator. -/
def mk' (n : Int) (d : Int) (h : 0 < d := by decide) : Fr := ⟨n, d, h⟩

def add (x y : Fr) : Fr :=
  ⟨x.num * y.den + y.num * x.den, x.den * y.den, Int.mul_pos x.dpos y.dpos⟩

def sub (x y : Fr) : Fr :=
  ⟨x.num * y.den - y.num * x.den, x.den * y.den, Int.mul_pos x.dpos y.dpos⟩

def mul (x y : Fr) : Fr :=
  ⟨x.num * y.num, x.den * y.den, Int.mul_pos x.dpos y.dpos⟩

/-- Division.  Only ever reached with a nonzero divisor in the embedded code
(the JS code guards every division); the `divisor = 0` case is given an
arbitrary value to stay total. -/
def div (x y : Fr) : Fr :=
  if h : y.num = 0 then ⟨0, 1, Int.zero_lt_one⟩
  else
    ⟨x.num * y.den * Int.sign y.num, x.den * y.num.natAbs,
      Int.mul_pos x.dpos (by
        have : y.num.natAbs ≠ 0 := Int.natAbs_ne_zero.mpr h
        exact_mod_cast Nat.pos_of_ne_zero this)⟩

/-- `x < y` as the JS `<` on numbers. -/
def blt (x y : Fr) : Bool := x.num * y.den < y.num * x.den

/-- `x ≤ y`. -/
def ble (x y : Fr) : Bool := x.num * y.den ≤ y.num * x.den

/-- `Math.max`. -/
def fmax (x y : Fr) : Fr := if blt x y then y else x

/-- `Math.min`. -/
def fmin (x y : Fr) : Fr := if blt y x then y else x

/-- `Math.round`: round half toward positive infinity, `⌊x + 1/2⌋`. -/
def jsRound (x : Fr) : Int := (2 * x.num + x.den) / (2 * x.den)

/-- JS `x % 1`: `x` minus its truncation toward zero. -/
def jsModOne (x : Fr) : Fr :=
  let t : Int := if ble (ofInt 0) x then x.num / x.den
                 else - ((-x.num) / x.den)
  sub x (ofInt t)

theorem val_ofInt (i : Int) : (ofInt i).val = (i : ℚ) := by
  simp [ofInt, val]

theorem den_cast_pos (x : Fr) : (0 : ℚ) < (x.den : ℚ) := by exact_mod_cast x.dpos

theorem den_cast_ne (x : Fr) : (x.den : ℚ) ≠ 0 := (den_cast_pos x).ne'

theorem val_add (x y : Fr) : (x.add y).val = x.val + y.val := by
  unfold add val
  rw [div_add_div _ _ (den_cast_ne x) (den_cast_ne y)]
  push_cast
  ring_nf

theorem val_sub (x y : Fr) : (x.sub y).val = x.val - y.val := by
  unfold sub val
  rw [div_sub_div _ _ (den_cast_ne x) (den_cast_ne y)]
  push_cast
  ring_nf

theorem val_mul (x y : Fr) : (x.mul y).val = x.val * y.val := by
  unfold mul val
  push_cast
  rw [div_mul_div_comm]

theorem val_div (x y : Fr) (h : y.val ≠ 0) : (x.div y).val = x.val / y.val := by
  have hn : y.num ≠ 0 := by
    intro h0
    apply h
    simp [val, h0]
  unfold div val
  simp only [hn, dite_false, dif_neg]
  push_cast [Int.cast_natAbs]
  rcases lt_or_gt_of_ne hn with hlt | hgt
  · have hs : Int.sign y.num = -1 := Int.sign_eq_neg_one_of_neg hlt
    have habs : |(y.num : ℚ)| = -(y.num : ℚ) := abs_of_neg (by exact_mod_cast hlt)
    rw [hs, habs]
    push_cast
    field_simp
    try ring
  · have hs : Int.sign y.num = 1 := Int.sign_eq_one_of_pos hgt
    have habs : |(y.num : ℚ)| = (y.num : ℚ) := abs_of_pos (by exact_mod_cast hgt)
    rw [hs, habs]
    push_cast
    field_simp
    try ring

theorem blt_iff (x y : Fr) : x.blt y = true ↔ x.val < y.val := by
  unfold blt val
  rw [div_lt_div_iff₀ (den_cast_pos x) (den_cast_pos y)]
  simp only [decide_eq_true_eq]
  exact_mod_cast Iff.rfl

theorem ble_iff (x y : Fr) : x.ble y = true ↔ x.val ≤ y.val := by
  unfold ble val
  rw [div_le_div_iff₀ (den_cast_pos x) (den_cast_pos y)]
  simp only [decide_eq_true_eq]
  exact_mod_cast Iff.rfl

theorem blt_false_iff (x y : Fr) : x.blt y = false ↔ y.val ≤ x.val := by
  rw [← Bool.not_eq_true, not_iff_comm, blt_iff, not_le]

theorem ble_false_iff (x y : Fr) : x.ble y = false ↔ y.val < x.val := by
  rw [← Bool.not_eq_true, not_iff_comm, ble_iff, not_lt]

theorem val_fmax (x y : Fr) : (x.fmax y).val = max x.val y.val := by
  unfold fmax
  rcases h : x.blt y with _ | _
  · rw [if_neg (by simp), max_eq_left ((blt_false_iff x y).mp h)]
  · rw [if_pos rfl, max_eq_right (le_of_lt ((blt_iff x y).mp h))]

theorem val_fmin (x y : Fr) : (x.fmin y).val = min x.val y.val := by
  unfold fmin
  rcases h : y.blt x with _ | _
  · rw [if_neg (by simp), min_eq_left ((blt_false_iff y x).mp h)]
  · rw [if_pos rfl, min_eq_right (le_of_lt ((blt_iff y x).mp h))]

theorem ediv_eq_floor (a b : Int) (hb : 0 < b) : a / b = ⌊(a : ℚ) / (b : ℚ)⌋ := by
  have hbq : (0 : ℚ) < (b : ℚ) := by exact_mod_cast hb
  symm
  rw [Int.floor_eq_iff]
  constructor
  · rw [le_div_iff₀ hbq]
    have h1 : (a / b) * b ≤ a := Int.ediv_mul_le a (ne_of_gt hb)
    exact_mod_cast h1
  · rw [div_lt_iff₀ hbq]
    have h2 : a < (a / b + 1) * b := Int.lt_ediv_add_one_mul_self a hb
    exact_mod_cast h2

theorem jsRound_eq (x : Fr) : x.jsRound = ⌊x.val + 1/2⌋ := by
  unfold jsRound val
  rw [ediv_eq_floor _ _ (by have := x.dpos; omega)]
  congr 1
  have := den_cast_ne x
  push_cast
  field_simp
  ring

/-- `jsRound` is within `1/2` of the value (upper side). -/
theorem jsRound_le (x : Fr) : (x.jsRound : ℚ) ≤ x.val + 1/2 :=
  (jsRound_eq x) ▸ Int.floor_le _

/-- `jsRound` is within `1/2` of the value (lower side). -/
theorem lt_jsRound (x : Fr) : x.val - 1/2 < (x.jsRound : ℚ) := by
  rw [jsRound_eq]
  have := Int.lt_floor_add_one (x.val + 1/2)
  linarith

end Fr

/-! ## Names and the name parser (`parseLineageName` and friends) -/

/-- A lineage name: a JavaScript string as a list of characters. -/
abbrev Name := List Char

/-- `A`–`Z`, the character class of the multi-letter-root regex. -/
def isUpperAZ (c : Char) : Bool := 'A' ≤ c && c ≤ 'Z'

/-- `A`–`Z` or `a`–`z`, the class `[A-Za-z]`. -/
def isAsciiLetter (c : Char) : Bool := ('A' ≤ c && c ≤ 'Z') || ('a' ≤ c && c ≤ 'z')

/-- `0`–`9`, the class `\d`. -/
def isDigitC (c : Char) : Bool := '0' ≤ c && c ≤ '9'

/-- JS `String.prototype.split('.')`: empty chunks are kept and splitting the
empty string yields `[""]`. -/
def splitOnDot : Name → List Name
  | [] => [[]]
  | c :: rest =>
    if c = '.' then [] :: splitOnDot rest
    else
      match splitOnDot rest with
      | [] => [[c]]
      | g :: gs => (c :: g) :: gs

/-- `Array.prototype.join('.')`. -/
def joinDots : List Name → Name
  | [] => []
  | [p] => p
  | p :: ps => p ++ '.' :: joinDots ps

/-- JS `String.prototype.indexOf('.')`: first index of `'.'`, or `-1`. -/
def dotIndexZ : Name → Int
  | [] => -1
  | c :: rest =>
    if c = '.' then 0
    else
      let r := dotIndexZ rest
      if r < 0 then -1 else r + 1

/-- The test of the regex `/^[A-Z]{2,}($|\.)/`: at least two leading
upper-case letters followed by the end of the string or a dot.  (The greedy
`{2,}` with backtracking can only succeed with the maximal upper-case run,
since any shorter run is followed by a further upper-case letter, which is
neither `$` nor `.`.) -/
def multiLetterTest (l : Name) : Bool :=
  let u := l.takeWhile isUpperAZ
  decide (u.length ≥ 2) &&
    (match l.drop u.length with
     | [] => true
     | c :: _ => c = '.')

/-- The test of the regex `/^[A-Za-z]+$/`. -/
def allLettersTest (l : Name) : Bool :=
  !l.isEmpty && l.all isAsciiLetter

/-- Result of `parseLineageName`. -/
structure ParsedName where
  parts : List Name
  parent : Option Name
deriving DecidableEq

/-- `parseLineageName` of the lineage-utility module.  The JS `null` parent is
`none`; note the JS code can also return the empty-string parent (for inputs
such as `".x"`), which is `some []` here — consumers test the parent for
truthiness, so `none` and `some []` are both "no parent" at use sites. -/
def parseLineageName (l : Name) : ParsedName :=
  if l = [] then ⟨[], none⟩
  else if multiLetterTest l then
    let di := dotIndexZ l
    if di > 0 then
      let rootPart := l.take di.toNat
      let numericParts := splitOnDot (l.drop (di.toNat + 1))
      let parent :=
        if numericParts.length > 1 then
          rootPart ++ '.' :: joinDots (numericParts.take (numericParts.length - 1))
        else rootPart
      ⟨rootPart :: numericParts, some parent⟩
    else ⟨[l], none⟩
  else
    let parts := splitOnDot l
    ⟨parts,
     if parts.length > 1 then some (joinDots (parts.take (parts.length - 1))) else none⟩

/-- The inner loop of `getAllParentLineages`: from the accumulated prefix and
the remaining parts, the list of successively longer dot-joined prefixes. -/
def prefixAccum (cur : Name) : List Name → List Name
  | [] => []
  | p :: ps =>
    let cur2 := cur ++ '.' :: p
    cur2 :: prefixAccum cur2 ps

/-- All dot-joined prefixes of a parts list (including the full join). -/
def prefixJoins : List Name → List Name
  | [] => []
  | p :: ps => p :: prefixAccum p ps

/-- `getAllParentLineages` (local helper of `organizeLineageHierarchy`):
`"B.1.1.7"` yields `["B", "B.1", "B.1.1"]`. -/
def getAllParentLineages (l : Name) : List Name :=
  if l = [] then []
  else
    let parts :=
      if multiLetterTest l then
        let di := dotIndexZ l
        if di > 0 then l.take di.toNat :: splitOnDot (l.drop (di.toNat + 1))
        else [l]
      else splitOnDot l
    (prefixJoins parts).dropLast

/-- `getLineageLevel` of the lineage-utility module. -/
def getLineageLevel (l : Name) : Int :=
  if l = [] then 0
  else if multiLetterTest l then
    if dotIndexZ l = -1 then 0
    else (splitOnDot l).length - 1
  else (parseLineageName l).parts.length - 1

/-- Result of `extractLineageRoot`.  The JS `null` root (empty input only) is
represented by the empty name, which no caller consults. -/
structure RootParts where
  rootLineage : Name
  nameParts : List Name
deriving DecidableEq

/-- `extractLineageRoot` of the lineage-utility module. -/
def extractLineageRoot (l : Name) : RootParts :=
  if l = [] then ⟨[], []⟩
  else if l.head? = some 'X' then
    if decide (l.length > 1) && decide (dotIndexZ l > 0) then
      let di := dotIndexZ l
      let root := l.take di.toNat
      ⟨root, root :: splitOnDot (l.drop (di.toNat + 1))⟩
    else ⟨l, [l]⟩
  else if multiLetterTest l then
    let di := dotIndexZ l
    if di > 0 then
      let root := l.take di.toNat
      ⟨root, root :: splitOnDot (l.drop (di.toNat + 1))⟩
    else ⟨l, [l]⟩
  else
    let parts := splitOnDot l
    ⟨parts.headD [], parts⟩

/-- State machine of the regex `/^[A-Za-z](\.\d+)*$/` after the leading
letter.  Mode 0: expect `.` or end; mode 1: just after a `.`, expect a digit;
mode 2: inside a digit run, expect a digit, a `.`, or the end. -/
def pangoScan (mode : Nat) : Name → Bool
  | [] => decide (mode ≠ 1)
  | c :: rest =>
    if mode = 0 then decide (c = '.') && pangoScan 1 rest
    else if mode = 1 then isDigitC c && pangoScan 2 rest
    else if c = '.' then pangoScan 1 rest
    else isDigitC c && pangoScan 2 rest

/-- `isPangoLineage` of the lineage-utility module: the test of
`/^[A-Za-z](\.\d+)*$/` (with the falsy guard for the empty name). -/
def isPangoLineage (l : Name) : Bool :=
  match l with
  | [] => false
  | c :: rest => isAsciiLetter c && pangoScan 0 rest

example : isPangoLineage "B.1.1.7".data = true := by decide
example : isPangoLineage "AY.4".data = false := by decide
example : isPangoLineage "B.x".data = false := by decide
example : parseLineageName "AY.4.2".data =
    ⟨["AY".data, "4".data, "2".data], some "AY.4".data⟩ := by decide
example : parseLineageName "B.1.1.7".data =
    ⟨["B".data, "1".data, "1".data, "7".data], some "B.1.1".data⟩ := by decide
example : getAllParentLineages "B.1.1.7".data =
    ["B".data, "B.1".data, "B.1.1".data] := by decide
example : getAllParentLineages "AY.4".data = ["AY".data] := by decide
example : extractLineageRoot "XBB.1.5".data =
    ⟨"XBB".data, ["XBB".data, "1".data, "5".data]⟩ := by decide
example : getLineageLevel "AY.4".data = 1 := by decide

/-! ## The colour assigner (`generatePangoLineageColor`) -/

/-- An RGB triple as produced by the colour code. -/
abbrev Color := Int × Int × Int

namespace Fr

/-- JS `===` on numbers. -/
def beq (x y : Fr) : Bool := x.num * y.den = y.num * x.den

theorem beq_iff (x y : Fr) : x.beq y = true ↔ x.val = y.val := by
  unfold beq val
  rw [div_eq_div_iff (den_cast_ne x) (den_cast_ne y)]
  simp only [decide_eq_true_eq]
  exact_mod_cast Iff.rfl

theorem beq_false_iff (x y : Fr) : x.beq y = false ↔ x.val ≠ y.val := by
  rw [← Bool.not_eq_true, not_iff_not, beq_iff]

end Fr

/-- `n` percent, the form of most decimal literals in the colour code. -/
def pm (n : Int) : Fr := ⟨n, 100, by decide⟩

/-- `n` per mille (for the literal `0.005`). -/
def pml (n : Int) : Fr := ⟨n, 1000, by decide⟩

def frHalf : Fr := ⟨1, 2, by decide⟩
def frThird : Fr := ⟨1, 3, by decide⟩
def frSixth : Fr := ⟨1, 6, by decide⟩
def frTwoThirds : Fr := ⟨2, 3, by decide⟩

theorem val_pm (n : Int) : (pm n).val = (n : ℚ) / 100 := by simp [pm, Fr.val]
theorem val_pml (n : Int) : (pml n).val = (n : ℚ) / 1000 := by simp [pml, Fr.val]
theorem val_frHalf : frHalf.val = 1/2 := by simp [frHalf, Fr.val]
theorem val_frThird : frThird.val = 1/3 := by simp [frThird, Fr.val]
theorem val_frSixth : frSixth.val = 1/6 := by simp [frSixth, Fr.val]
theorem val_frTwoThirds : frTwoThirds.val = 2/3 := by norm_num [frTwoThirds, Fr.val]

/-- The `rgbToHsl` helper of `generatePangoLineageColor`. -/
def rgbToHsl (ri gi bi : Int) : Fr × Fr × Fr :=
  let r := (Fr.ofInt ri).div (Fr.ofInt 255)
  let g := (Fr.ofInt gi).div (Fr.ofInt 255)
  let b := (Fr.ofInt bi).div (Fr.ofInt 255)
  let mx := r.fmax (g.fmax b)
  let mn := r.fmin (g.fmin b)
  let l := (mx.add mn).div (Fr.ofInt 2)
  if mx.beq mn then (Fr.ofInt 0, Fr.ofInt 0, l)
  else
    let d := mx.sub mn
    let s := if frHalf.blt l then d.div (((Fr.ofInt 2).sub mx).sub mn)
             else d.div (mx.add mn)
    let h :=
      if mx.beq r then
        ((g.sub b).div d).add (if g.blt b then Fr.ofInt 6 else Fr.ofInt 0)
      else if mx.beq g then ((b.sub r).div d).add (Fr.ofInt 2)
      else ((r.sub g).div d).add (Fr.ofInt 4)
    (h.div (Fr.ofInt 6), s, l)

/-- The `hue2rgb` helper of the `hslToRgb` conversion. -/
def hue2rgb (p q t0 : Fr) : Fr :=
  let t1 := if t0.blt (Fr.ofInt 0) then t0.add (Fr.ofInt 1) else t0
  let t := if (Fr.ofInt 1).blt t1 then t1.sub (Fr.ofInt 1) else t1
  if t.blt frSixth then p.add (((q.sub p).mul (Fr.ofInt 6)).mul t)
  else if t.blt frHalf then q
  else if t.blt frTwoThirds then p.add (((q.sub p).mul (frTwoThirds.sub t)).mul (Fr.ofInt 6))
  else p

/-- The three rounded channels `255 * hue2rgb(p, q, h ± 1/3)` of the
`hslToRgb` conversion. -/
def hslChannels (p q h : Fr) : Color :=
  (((hue2rgb p q (h.add frThird)).mul (Fr.ofInt 255)).jsRound,
   ((hue2rgb p q h).mul (Fr.ofInt 255)).jsRound,
   ((hue2rgb p q (h.sub frThird)).mul (Fr.ofInt 255)).jsRound)

/-- The `hslToRgb` helper of `generatePangoLineageColor`. -/
def hslToRgb (h s l : Fr) : Color :=
  if s.beq (Fr.ofInt 0) then
    let v := (l.mul (Fr.ofInt 255)).jsRound
    (v, v, v)
  else
    let q := if l.blt frHalf then l.mul ((Fr.ofInt 1).add s) else (l.add s).sub (l.mul s)
    let p := ((Fr.ofInt 2).mul l).sub q
    hslChannels p q h

/-- The character-weighted hash `reduce((acc, char, i) => acc + code * (i+1) * 37, 0)`
used by `generateColorForUnknownLineage` and the gray-fallback. -/
def charWeightSeed (l : Name) : Int :=
  (List.range l.length).zip l |>.foldl
    (fun acc ic => acc + (ic.2.toNat : Int) * ((ic.1 : Int) + 1) * 37) 0

/-- The character hash `reduce((acc, char, index) => acc + code * (index+1), 0)`
used for secondary letters of multi-letter roots. -/
def charIdxSeed (l : Name) : Int :=
  (List.range l.length).zip l |>.foldl
    (fun acc ic => acc + (ic.2.toNat : Int) * ((ic.1 : Int) + 1)) 0

/-- The seed-to-colour formula
`hslToRgb((seed % 360) / 360, 0.7 + (seed % 20) / 100, 0.5)` that the source
writes out twice: in `generateColorForUnknownLineage` and (verbatim) in the
gray-fallback of the deep branch of `generatePangoLineageColor`. -/
def seedColor (seed : Int) : Color :=
  let h := (Fr.ofInt (Int.tmod seed 360)).div (Fr.ofInt 360)
  let s := (pm 70).add ((Fr.ofInt (Int.tmod seed 20)).div (Fr.ofInt 100))
  hslToRgb h s frHalf

/-- `generateColorForUnknownLineage`: a deterministic vibrant colour from a
character-weighted hash. -/
def generateColorForUnknownLineage (l : Name) : Color :=
  seedColor (charWeightSeed l)

/-- The `isGrayish` test, in exact integer form: with `S = r + g + b`, the
JS test `sqrt(((r-avg)² + (g-avg)² + (b-avg)²)/3) < 25` is equivalent to
`(3r-S)² + (3g-S)² + (3b-S)² < 27·625 = 16875`. -/
def isGrayishC : Color → Bool
  | (r, g, b) =>
    let s := r + g + b
    decide ((3*r - s) * (3*r - s) + (3*g - s) * (3*g - s) + (3*b - s) * (3*b - s) < 16875)

example : isGrayishC (180, 180, 180) = true := by decide
example : isGrayishC (200, 40, 40) = false := by decide
example : hslToRgb ⟨8,15, by decide⟩ ⟨1,5, by decide⟩ ⟨2,5, by decide⟩ = (82, 114, 122) := by decide

/-- The `baseColors` object literal of `generatePangoLineageColor`, in source
order.  The keys `BJ`, `BL` and `BN` occur twice in the JS literal; as in a JS
object literal, the later entry wins, which `lookupBaseColor` realises by
searching the reversed list. -/
def baseColorsList : List (Name × Color) :=
  [("A".data, (200, 40, 40)), ("B".data, (40, 40, 200)), ("C".data, (40, 160, 40)),
   ("D".data, (180, 140, 20)), ("E".data, (160, 40, 160)), ("F".data, (40, 160, 160)),
   ("G".data, (180, 70, 40)), ("H".data, (120, 40, 140)), ("I".data, (70, 130, 50)),
   ("J".data, (160, 60, 90)), ("K".data, (40, 100, 140)), ("L".data, (140, 120, 40)),
   ("M".data, (100, 40, 80)), ("N".data, (40, 120, 100)), ("O".data, (170, 70, 70)),
   ("P".data, (70, 70, 170)), ("Q".data, (150, 150, 40)), ("R".data, (90, 40, 140)),
   ("S".data, (40, 110, 70)), ("T".data, (140, 80, 40)), ("U".data, (80, 40, 120)),
   ("V".data, (100, 130, 40)), ("W".data, (150, 60, 100)), ("Z".data, (60, 120, 120)),
   ("AY".data, (240, 100, 60)), ("AU".data, (235, 85, 55)), ("AZ".data, (245, 95, 65)),
   ("AT".data, (230, 90, 50)), ("AS".data, (220, 80, 45)), ("AA".data, (225, 85, 50)),
   ("AB".data, (215, 75, 45)), ("AC".data, (210, 70, 40)), ("AD".data, (205, 65, 35)),
   ("AE".data, (200, 60, 30)), ("AF".data, (195, 55, 25)), ("AG".data, (190, 50, 20)),
   ("AH".data, (185, 45, 15)), ("AI".data, (180, 40, 10)), ("AJ".data, (175, 35, 5)),
   ("AK".data, (170, 30, 0)), ("AL".data, (175, 35, 5)), ("AM".data, (180, 40, 10)),
   ("AN".data, (185, 45, 15)), ("AO".data, (190, 50, 20)), ("AP".data, (195, 55, 25)),
   ("AQ".data, (200, 60, 30)), ("AR".data, (205, 65, 35)), ("AV".data, (210, 70, 40)),
   ("AW".data, (215, 75, 45)), ("AX".data, (220, 80, 50)),
   ("BJ".data, (60, 100, 210)), ("BL".data, (70, 120, 220)), ("BN".data, (80, 140, 230)),
   ("CH".data, (60, 180, 100)), ("CJ".data, (70, 170, 90)), ("CR".data, (50, 190, 110)),
   ("DL".data, (200, 160, 40)), ("DR".data, (210, 150, 30)),
   ("EG".data, (180, 60, 180)), ("EH".data, (170, 50, 190)), ("EL".data, (190, 70, 170)),
   ("FL".data, (60, 190, 190)), ("FM".data, (50, 180, 200)),
   ("HK".data, (140, 60, 160)), ("HV".data, (130, 50, 170)),
   ("JN".data, (180, 80, 100)), ("JP".data, (170, 70, 110)),
   ("KP".data, (60, 120, 160)), ("KL".data, (50, 110, 170)),
   ("BA".data, (70, 70, 180)), ("BB".data, (60, 80, 190)), ("BC".data, (50, 90, 200)),
   ("BD".data, (60, 100, 190)), ("BE".data, (70, 110, 180)), ("BF".data, (80, 120, 170)),
   ("BG".data, (90, 130, 160)), ("BH".data, (100, 140, 150)), ("BJ".data, (110, 150, 140)),
   ("BK".data, (120, 160, 130)), ("BL".data, (130, 170, 120)), ("BM".data, (140, 180, 110)),
   ("BN".data, (150, 190, 100)), ("BP".data, (140, 170, 110)), ("BQ".data, (130, 160, 120)),
   ("BR".data, (120, 150, 130)), ("BS".data, (110, 140, 140)), ("BT".data, (100, 130, 150)),
   ("BU".data, (90, 120, 160)), ("BV".data, (80, 110, 170)), ("BW".data, (70, 100, 180)),
   ("BY".data, (60, 90, 190)), ("BZ".data, (50, 80, 200)),
   ("X".data, (130, 60, 130)), ("XA".data, (140, 60, 140)), ("XB".data, (150, 60, 150)),
   ("XC".data, (160, 60, 160)), ("XD".data, (170, 60, 170)), ("XE".data, (180, 60, 180)),
   ("XF".data, (170, 60, 170)), ("XG".data, (160, 60, 160)), ("XH".data, (150, 60, 150)),
   ("XJ".data, (140, 60, 140)), ("XK".data, (130, 60, 130)), ("XL".data, (120, 60, 120)),
   ("XM".data, (110, 60, 110)), ("XN".data, (100, 60, 100)), ("XP".data, (110, 60, 110)),
   ("XQ".data, (120, 60, 120)), ("XR".data, (130, 60, 130)), ("XS".data, (140, 60, 140)),
   ("XBB".data, (140, 70, 170)), ("XBF".data, (150, 80, 180)), ("XBC".data, (160, 90, 190))]

/-- Lookup in the `baseColors` object: the last entry for a key wins. -/
def lookupBaseColor (k : Name) : Option Color :=
  (baseColorsList.reverse.find? (fun e => e.1 = k)).map (·.2)

example : lookupBaseColor "BJ".data = some (110, 150, 140) := by decide
example : lookupBaseColor "AY".data = some (240, 100, 60) := by decide
example : lookupBaseColor "BH".data = some (100, 140, 150) := by decide
example : lookupBaseColor "Y".data = none := by decide

/-- The colour derived for a multi-letter root whose first letter has a base
colour: hue rotated by a hash of the remaining letters (mod 1, shifted into
`[0,1)`), saturation and lightness clamped (`Math.max(0.6, Math.min(0.9, s+0.2))`
and `Math.max(0.35, Math.min(0.55, l))`). -/
def derivedRootColor (parentColor : Color) (rootLineage : Name) : Color :=
  let hsl := rgbToHsl parentColor.1 parentColor.2.1 parentColor.2.2
  let hash := charIdxSeed (rootLineage.drop 1)
  let h1 := (((hsl.1.mul (Fr.ofInt 360)).add
               (Fr.ofInt (Int.tmod hash 120))).sub (Fr.ofInt 60)).div (Fr.ofInt 360)
  let h2 := h1.jsModOne
  let h3 := if h2.blt (Fr.ofInt 0) then h2.add (Fr.ofInt 1) else h2
  let s2 := (pm 60).fmax ((pm 90).fmin (hsl.2.1.add (pm 20)))
  let l2 := (pm 35).fmax ((pm 55).fmin hsl.2.2)
  hslToRgb h3 s2 l2

/-- The `baseColor` computation of `generatePangoLineageColor`: table lookup,
then the `BA` special case, then the derived colour for multi-letter roots
with a known first letter, then the unknown-lineage hash colour. -/
def basePangoColor (rootLineage : Name) : Color :=
  match lookupBaseColor rootLineage with
  | some c => c
  | none =>
    if rootLineage = "BA".data then (70, 70, 180)
    else if rootLineage.length > 1 then
      match lookupBaseColor (rootLineage.take 1) with
      | some parentColor => derivedRootColor parentColor rootLineage
      | none => generateColorForUnknownLineage rootLineage
    else generateColorForUnknownLineage rootLineage

/-- The root-level fallback of `generatePangoLineageColor`: boost washed-out
base colours (`s < 0.5`) to `s = 0.7`, keep the rest. -/
def rootFall (c : Color) : Color :=
  let hsl := rgbToHsl c.1 c.2.1 c.2.2
  if hsl.2.1.blt frHalf then hslToRgb hsl.1 (pm 70) hsl.2.2 else c

/-- The prevalence-adjusted root colour of `generatePangoLineageColor`
(the branch taken when hierarchy data lists the root with positive total). -/
def rootPrevColor (baseColor : Color) (count total : Int) : Color :=
  let prevalence := (Fr.ofInt count).div (Fr.ofInt total)
  let norm := (Fr.ofInt 1).fmin (prevalence.div (pm 30))
  let hsl := rgbToHsl baseColor.1 baseColor.2.1 baseColor.2.2
  let s2 := (Fr.ofInt 1).fmin (hsl.2.1.add (norm.mul (pm 30)))
  let l2 := (pm 25).fmax ((pm 40).sub (norm.mul (pm 15)))
  hslToRgb hsl.1 s2 l2

/-- The final anti-gray check of the deep branch: keep the adjusted colour
unless it is grayish, in which case substitute the seed-hash colour of the
full name. -/
def grayGuard (l : Name) (c : Color) : Color :=
  if isGrayishC c then seedColor (charWeightSeed l) else c

/-- A node of the caller-supplied `lineageData.hierarchyData` tree (only the
fields the colour code reads: `name`, `count`, `children`). -/
inductive HNode where
  | mk (name : Name) (count : Int) (children : List HNode)

def HNode.name : HNode → Name
  | .mk n _ _ => n

def HNode.count : HNode → Int
  | .mk _ c _ => c

def HNode.children : HNode → List HNode
  | .mk _ _ cs => cs

/-- The optional `lineageData` argument of `generatePangoLineageColor`. -/
structure LData where
  hierarchyData : List HNode
  totalCount : Option Int

/-- `lineageData.totalCount || hierarchyData.reduce((sum, node) => sum + (node.count || 0), 0)`:
a missing or zero (falsy) `totalCount` falls back to the sum of root counts. -/
def effTotal (ld : LData) : Int :=
  match ld.totalCount with
  | some t => if t = 0 then ld.hierarchyData.foldl (fun acc n => acc + n.count) 0 else t
  | none => ld.hierarchyData.foldl (fun acc n => acc + n.count) 0

/-- The recursive `findNode` helper of the deep branch: depth-first preorder
search of the hierarchy for a node with the given name. -/
def findHNode : List HNode → Name → Option HNode
  | [], _ => none
  | .mk n c cs :: rest, t =>
    if n = t then some (.mk n c cs)
    else
      match findHNode cs t with
      | some found => some found
      | none => findHNode rest t

/-- JS `parseInt` on the decimal forms that occur in lineage path segments
(optional sign, then a leading run of decimal digits; `none` is `NaN`).
Exotic `parseInt` inputs (leading whitespace, hex prefixes) do not occur in
dot-split name segments and are not modelled. -/
def parseIntJS (l : Name) : Option Int :=
  let digitsOf : Name → Option Int := fun s =>
    let ds := s.takeWhile isDigitC
    if ds = [] then none
    else some (ds.foldl (fun a c => a * 10 + ((c.toNat : Int) - ('0'.toNat : Int))) 0)
  match l with
  | '-' :: rest => (digitsOf rest).map (fun v => -v)
  | '+' :: rest => digitsOf rest
  | _ => digitsOf l

/-- `generatePangoLineageColor` of the lineage-utility module. -/
def generatePangoLineageColor (l : Name) (dat : Option LData) : Color :=
  if l = [] then (180, 180, 180)
  else if !(l.contains '.') && !(allLettersTest l) then
    generateColorForUnknownLineage l
  else
    let rp := extractLineageRoot l
    let nameParts := rp.nameParts
    let baseColor : Color := basePangoColor rp.rootLineage
    if nameParts.length = 1 then
      -- Root level: base colour, possibly adjusted by prevalence.
      match dat with
      | some ld =>
        match ld.hierarchyData.find? (fun n => n.name = l) with
        | some rootNode =>
          if 0 < effTotal ld then rootPrevColor baseColor rootNode.count (effTotal ld)
          else rootFall baseColor
        | none => rootFall baseColor
      | none => rootFall baseColor
    else
      -- Deeper levels: lighten with depth, perturb per numeric segment,
      -- darken with prevalence, and reject gray results.
      let hsl0 := rgbToHsl baseColor.1 baseColor.2.1 baseColor.2.2
      let depth : Int := (nameParts.length : Int) - 1
      let sBase : Fr × Fr :=
        match dat with
        | some ld =>
          match findHNode ld.hierarchyData l with
          | some nodef =>
            let totalCount := effTotal ld
            if 0 < totalCount then
              let prevalence := (Fr.ofInt nodef.count).div (Fr.ofInt totalCount)
              let norm := (Fr.ofInt 1).fmin (prevalence.div (pm 20))
              ((pm 90).fmin (hsl0.2.1.add (norm.mul (pm 10))),
               (pm 40).sub (norm.mul (pm 15)))
            else (hsl0.2.1, pm 40)
          | none => (hsl0.2.1, pm 40)
        | none => (hsl0.2.1, pm 40)
      let l1 := (pm 75).fmin ((pm 25).fmax
        (sBase.2.add ((Fr.ofInt (depth - 1)).mul (pm 8))))
      let st := (nameParts.drop 1).foldl
        (fun (st : Fr × Fr × Fr) part =>
          match parseIntJS part with
          | none => st
          | some n =>
            let h := st.1.add ((Fr.ofInt (Int.tmod n 12)).mul (pml 5))
            let h := if (Fr.ofInt 1).blt h then h.sub (Fr.ofInt 1) else h
            let lAdj := ((pm (-2)).mul (Fr.ofInt (Int.tmod n 5))).div (Fr.ofInt 5)
            let lNew := (pm 75).fmin ((pm 25).fmax (st.2.2.add lAdj))
            let sNew := (pm 90).fmin ((pm 20).fmax (st.2.1.add (pml 5)))
            (h, sNew, lNew))
        (hsl0.1, sBase.1, l1)
      grayGuard l (hslToRgb st.1 st.2.1 st.2.2)

/-- The branch selector of `generatePangoLineageColor`: `true` exactly when
the call reaches the single-segment (root-level) prevalence-adjustment branch,
i.e. the name survives the early returns, splits into one segment, is found
in the supplied hierarchy data, and the effective total count is positive. -/
def rootPrevalenceAdjusted (l : Name) (dat : Option LData) : Bool :=
  if l = [] then false
  else if !(l.contains '.') && !(allLettersTest l) then false
  else if (extractLineageRoot l).nameParts.length = 1 then
    match dat with
    | some ld =>
      match ld.hierarchyData.find? (fun n => n.name = l) with
      | some _ => decide (0 < effTotal ld)
      | none => false
    | none => false
  else false

example : generatePangoLineageColor "AY".data none = (240, 100, 60) := by decide
example : generatePangoLineageColor "B".data none = (40, 40, 200) := by decide
example :
    isGrayishC (generatePangoLineageColor "BH".data
      (some ⟨[HNode.mk "BH".data 0 []], some 100⟩)) = true := by decide
example : generatePangoLineageColor "BH".data
      (some ⟨[HNode.mk "BH".data 0 []], some 100⟩) = (82, 114, 122) := by decide
example : isGrayishC (generatePangoLineageColor "BH".data none) = false := by decide
example : isGrayishC (generatePangoLineageColor "B.1.1.7".data none) = false := by decide

/-! ## The hierarchy builder (`organizeLineageHierarchy`) -/

/-- An input observation: an element of the `lineages` array
(`{value, count, color}`). -/
structure LineageObs where
  value : Name
  count : Int
  color : Option Color
deriving DecidableEq

/-- The optional `nodeTypes` object: a string-keyed dictionary of node-type
strings. -/
abbrev NodeTypes := Option (List (Name × Name))

/-- `!nodeTypes || !nodeTypes[value] || nodeTypes[value] === 'leaf'`
(a missing or empty — falsy — entry counts as leaf). -/
def isLeafCountFor (nt : NodeTypes) (v : Name) : Bool :=
  match nt with
  | none => true
  | some table =>
    match (table.find? (fun e => e.1 = v)).map (·.2) with
    | none => true
    | some s => s.isEmpty || s = "leaf".data

/-- A value of the `lineageMap`: the mutable node object of the JS code
(`children` and the `parent` back-reference live in the tree structure of the
embedding; `totalTaxa` is `none` until the accumulation pass defines it). -/
structure NodeData where
  name : Name
  count : Int
  originalCount : Int
  sampleCount : Int
  internalCount : Int
  color : Option Color
  isExpanded : Bool
  level : Int
  totalTaxa : Option Int
deriving DecidableEq

/-- The node object created for an observed lineage in the first pass. -/
def mkObservedNode (obs : LineageObs) (nt : NodeTypes) : NodeData :=
  let isLeaf := isLeafCountFor nt obs.value
  { name := obs.value
    count := obs.count
    originalCount := obs.count
    sampleCount := if isLeaf then obs.count else 0
    internalCount := if isLeaf then 0 else obs.count
    color := obs.color
    isExpanded := false
    level := getLineageLevel obs.value
    totalTaxa := none }

/-- The zero-count node synthesized for an absent ancestor in the first pass
(its colour comes from `generatePangoLineageColor` with the name alone). -/
def mkSynthNode (p : Name) : NodeData :=
  { name := p
    count := 0
    originalCount := 0
    sampleCount := 0
    internalCount := 0
    color := some (generatePangoLineageColor p none)
    isExpanded := false
    level := getLineageLevel p
    totalTaxa := none }

/-- `if (!lineageMap[key]) lineageMap[key] = node`: insertion preserves the
JS object's key insertion order. -/
def insertIfAbsent (m : List NodeData) (nd : NodeData) : List NodeData :=
  if m.any (fun x => x.name = nd.name) then m else m ++ [nd]

/-- The first pass of `organizeLineageHierarchy`: create a node for every
observed lineage with a nonempty (truthy) value, then make sure every ancestor
name exists in the map, synthesizing zero-count nodes for missing ones. -/
def pass1 (lineages : List LineageObs) (nt : NodeTypes) : List NodeData :=
  lineages.foldl
    (fun m obs =>
      if obs.value = [] then m
      else
        let m1 := insertIfAbsent m (mkObservedNode obs nt)
        (getAllParentLineages obs.value).foldl
          (fun m2 p => insertIfAbsent m2 (mkSynthNode p)) m1)
    []

/-- The output tree: a node object together with its `children` array. -/
inductive LTree where
  | node (data : NodeData) (children : List LTree)

def LTree.data : LTree → NodeData
  | .node d _ => d

def LTree.children : LTree → List LTree
  | .node _ cs => cs

/-- The second pass, child side: the nodes pushed onto `children` of the node
named `n` are exactly the map members whose parsed parent is truthy, equals
`n`, and resolves in the map — in map insertion order. -/
def childObjs (m : List NodeData) (n : Name) : List NodeData :=
  m.filter (fun c =>
    match (parseLineageName c.name).parent with
    | none => false
    | some p => !p.isEmpty && p = n && m.any (fun x => x.name = n))

/-- The second pass, root side: a node lands in `rootLineages` when its parsed
parent is falsy (null or the empty string) or absent from the map. -/
def isRootNode (m : List NodeData) (c : NodeData) : Bool :=
  match (parseLineageName c.name).parent with
  | none => true
  | some p => p.isEmpty || !(m.any (fun x => x.name = p))

def rootObjs (m : List NodeData) : List NodeData := m.filter (isRootNode m)

/-- Build the tree below a map node by following `childObjs`.  The fuel only
bounds the recursion depth; `organizeLineageHierarchy` passes more fuel than
any chain of children can use, because each child has exactly one more
dot-segment than its parent and every node of a chain is a distinct map key. -/
def buildTree (m : List NodeData) : Nat → NodeData → LTree
  | 0, nd => .node nd []
  | f+1, nd => .node nd ((childObjs m nd.name).map (buildTree m f))

/-- The third pass, `accumulateChildCounts`: returns the updated tree together
with the `{totalCount, sampleCount, internalCount}` record the JS function
returns.  A node without children is returned unchanged (the JS early return
mutates nothing, so its `count` stays as initialised and `totalTaxa` stays
undefined); otherwise `count`, `sampleCount`, `internalCount` and `totalTaxa`
are recomputed from the children. -/
def accumulate : Nat → LTree → LTree × Int × Int × Int
  | 0, t => (t, 0, 0, 0)
  | f+1, .node d cs =>
    if cs.isEmpty then (.node d cs, d.originalCount, d.sampleCount, d.internalCount)
    else
      let rs := cs.map (accumulate f)
      let totalChildren := (rs.map (fun r => r.2.1)).foldl (· + ·) 0
      let ts := d.sampleCount + (rs.map (fun r => r.2.2.1)).foldl (· + ·) 0
      let ti := d.internalCount + (rs.map (fun r => r.2.2.2)).foldl (· + ·) 0
      let cnt := d.originalCount + totalChildren
      (.node { d with count := cnt, sampleCount := ts, internalCount := ti,
                      totalTaxa := some (ts + ti) }
        (rs.map (fun r => r.1)), cnt, ts, ti)

/-- Stable insertion for the comparator `(a, b) => b.count - a.count`:
`x` goes in front of the first element it need not follow, so elements with
equal `count` keep their relative order, as `Array.prototype.sort`
guarantees. -/
def insertByCount (x : LTree) : List LTree → List LTree
  | [] => [x]
  | y :: ys => if y.data.count ≤ x.data.count then x :: y :: ys else y :: insertByCount x ys

/-- Stable sort descending by `count` (models `sort(sortByCount)`). -/
def sortByCountList : List LTree → List LTree
  | [] => []
  | x :: xs => insertByCount x (sortByCountList xs)

/-- The recursive `sortChildren`. -/
def sortChildrenT : Nat → LTree → LTree
  | 0, t => t
  | f+1, .node d cs => .node d ((sortByCountList cs).map (sortChildrenT f))

/-- `organizeLineageHierarchy` of the lineage-utility module. -/
def organizeLineageHierarchy (lineages : List LineageObs) (nt : NodeTypes) : List LTree :=
  if lineages.isEmpty then []
  else
    let m := pass1 lineages nt
    let fuel := m.length + 1
    let roots := (rootObjs m).map (buildTree m fuel)
    let acc := roots.map (fun t => (accumulate (fuel + 1) t).1)
    (sortByCountList acc).map (sortChildrenT fuel)

/-- `s` is a node of the tree `t` (the reflexive-transitive reachability along
`children`). -/
inductive Subtree : LTree → LTree → Prop where
  | refl (t : LTree) : Subtree t t
  | step {t c s : LTree} : c ∈ t.children → Subtree c s → Subtree t s

example :
    organizeLineageHierarchy
      [⟨"B".data, 5, none⟩, ⟨"B.1".data, 3, none⟩, ⟨"B.1.1".data, 2, none⟩] none =
    [.node { name := "B".data, count := 10, originalCount := 5, sampleCount := 10,
             internalCount := 0, color := none, isExpanded := false, level := 0,
             totalTaxa := some 10 }
      [.node { name := "B.1".data, count := 5, originalCount := 3, sampleCount := 5,
               internalCount := 0, color := none, isExpanded := false, level := 1,
               totalTaxa := some 5 }
        [.node { name := "B.1.1".data, count := 2, originalCount := 2, sampleCount := 2,
                 internalCount := 0, color := none, isExpanded := false, level := 2,
                 totalTaxa := none } []]]] := by rfl

/-! ## The relationship oracle (`checkLineageRelationship`) -/

/-- The result strings of `checkLineageRelationship`: `'self'`, `'child'`
(the first name is a sub-lineage of the second), `'parent'` (the first name is
an ancestor of the second); JS `null` (unrelated or falsy input) is `none`. -/
inductive LinRel where
  | self
  | child
  | parent
deriving DecidableEq

/-- JS `String.prototype.startsWith`. -/
def jsStartsWith : Name → Name → Bool
  | _, [] => true
  | [], _ :: _ => false
  | c :: cs, p :: ps => c = p && jsStartsWith cs ps

/-- `checkLineageRelationship` of the category-list component. -/
def checkLineageRelationship (lineageName referenceLineage : Name) : Option LinRel :=
  if lineageName = [] || referenceLineage = [] then none
  else if lineageName = referenceLineage then some .self
  else if jsStartsWith lineageName (referenceLineage ++ ['.']) then some .child
  else if jsStartsWith referenceLineage (lineageName ++ ['.']) then some .parent
  else none

example : checkLineageRelationship "AY.4.2".data "AY".data = some .child := by decide
example : checkLineageRelationship "AY".data "AY.4.2".data = some .parent := by decide
example : checkLineageRelationship "AY".data "BA".data = none := by decide

-- C3 scenario sanity: the synthesized "AY" root gets the eagerly assigned colour.
example :
    organizeLineageHierarchy [⟨"AY.4".data, 7, none⟩] none =
    [.node { name := "AY".data, count := 7, originalCount := 0, sampleCount := 7,
             internalCount := 0,
             color := some (generatePangoLineageColor "AY".data none),
             isExpanded := false, level := 0, totalTaxa := some 7 }
      [.node { name := "AY.4".data, count := 7, originalCount := 7, sampleCount := 7,
               internalCount := 0, color := none, isExpanded := false, level := 1,
               totalTaxa := none } []]] := by rfl

-- C4 scenario sanity: a duplicated name keeps the first count, later entries dropped.
example :
    organizeLineageHierarchy [⟨"B".data, 5, none⟩, ⟨"B".data, 3, none⟩] none =
    [.node { name := "B".data, count := 5, originalCount := 5, sampleCount := 5,
             internalCount := 0, color := none, isExpanded := false, level := 0,
             totalTaxa := none } []] := by rfl

-- C5 scenario sanity: order changes the forest (the "B" observation is dropped
-- when "B" was already synthesized as an ancestor of "B.1").
example :
    (organizeLineageHierarchy [⟨"B".data, 5, none⟩, ⟨"B.1".data, 3, none⟩] none).map
      (fun t => (t.data.name, t.data.count, t.data.originalCount)) =
    [("B".data, 8, 5)] := by rfl
example :
    (organizeLineageHierarchy [⟨"B.1".data, 3, none⟩, ⟨"B".data, 5, none⟩] none).map
      (fun t => (t.data.name, t.data.count, t.data.originalCount)) =
    [("B".data, 3, 0)] := by rfl

/-! ## Claim C7: symmetry of the relationship oracle -/

theorem jsStartsWith_iff (s p : Name) : jsStartsWith s p = true ↔ ∃ t, s = p ++ t := by
  induction p generalizing s with
  | nil => simp [jsStartsWith]
  | cons c cs ih =>
    cases s with
    | nil =>
      simp only [jsStartsWith, List.cons_append]
      constructor
      · intro h; cases h
      · rintro ⟨t, ht⟩; cases ht
    | cons a as =>
      simp only [jsStartsWith, Bool.and_eq_true, decide_eq_true_eq, ih, List.cons_append,
        List.cons.injEq]
      constructor
      · rintro ⟨rfl, t, rfl⟩; exact ⟨t, rfl, rfl⟩
      · rintro ⟨t, rfl, rfl⟩; exact ⟨rfl, t, rfl⟩

theorem startsWithDot_length {a b : Name} (h : jsStartsWith a (b ++ ['.']) = true) :
    b.length + 1 ≤ a.length := by
  obtain ⟨t, rfl⟩ := (jsStartsWith_iff _ _).mp h
  simp [List.length_append]

theorem startsWithDot_ne {a b : Name} (h : jsStartsWith a (b ++ ['.']) = true) : a ≠ b := by
  intro hab
  have := startsWithDot_length h
  rw [hab] at this
  omega

theorem startsWithDot_asymm {a b : Name} (h : jsStartsWith a (b ++ ['.']) = true) :
    jsStartsWith b (a ++ ['.']) = false := by
  rcases hb : jsStartsWith b (a ++ ['.']) with _ | _
  · rfl
  · have h1 := startsWithDot_length h
    have h2 := startsWithDot_length hb
    omega

/-- `relate` characterisations, one per result value. -/
theorem relate_eq_self_iff (a b : Name) :
    checkLineageRelationship a b = some .self ↔ a ≠ [] ∧ b ≠ [] ∧ a = b := by
  unfold checkLineageRelationship
  split_ifs <;> simp_all <;> tauto

theorem relate_eq_child_iff (a b : Name) :
    checkLineageRelationship a b = some .child ↔
      a ≠ [] ∧ b ≠ [] ∧ a ≠ b ∧ jsStartsWith a (b ++ ['.']) = true := by
  unfold checkLineageRelationship
  split_ifs <;> simp_all <;> tauto

theorem relate_eq_parent_iff (a b : Name) :
    checkLineageRelationship a b = some .parent ↔
      a ≠ [] ∧ b ≠ [] ∧ a ≠ b ∧ jsStartsWith a (b ++ ['.']) = false ∧
        jsStartsWith b (a ++ ['.']) = true := by
  unfold checkLineageRelationship
  split_ifs <;> simp_all <;> tauto

theorem relate_eq_none_iff (a b : Name) :
    checkLineageRelationship a b = none ↔
      a = [] ∨ b = [] ∨ (a ≠ b ∧ jsStartsWith a (b ++ ['.']) = false ∧
        jsStartsWith b (a ++ ['.']) = false) := by
  unfold checkLineageRelationship
  split_ifs <;> simp_all <;> tauto

/-- **C7.** The relationship oracle `checkLineageRelationship` is
symmetric-inverse: for all name strings `a` and `b`, `relate(a,b) = self` iff
`relate(b,a) = self`; `relate(a,b)` reports `a` as a descendant (`'child'`) of
`b` iff `relate(b,a)` reports `b` as an ancestor (`'parent'`) of `a`; and
`relate(a,b)` is unrelated (`null`) iff `relate(b,a)` is unrelated. -/
theorem checkLineageRelationship_symm (a b : Name) :
    (checkLineageRelationship a b = some .self ↔ checkLineageRelationship b a = some .self) ∧
    (checkLineageRelationship a b = some .child ↔ checkLineageRelationship b a = some .parent) ∧
    (checkLineageRelationship a b = none ↔ checkLineageRelationship b a = none) := by
  refine ⟨?_, ?_, ?_⟩
  · rw [relate_eq_self_iff, relate_eq_self_iff]
    constructor
    · rintro ⟨h1, h2, rfl⟩; exact ⟨h1, h1, rfl⟩
    · rintro ⟨h1, h2, rfl⟩; exact ⟨h1, h1, rfl⟩
  · rw [relate_eq_child_iff, relate_eq_parent_iff]
    constructor
    · rintro ⟨h1, h2, h3, h4⟩
      exact ⟨h2, h1, fun h => h3 h.symm, startsWithDot_asymm h4, h4⟩
    · rintro ⟨h1, h2, h3, h4, h5⟩
      exact ⟨h2, h1, fun h => h3 h.symm, h5⟩
  · rw [relate_eq_none_iff, relate_eq_none_iff]
    constructor
    · rintro (h | h | ⟨h1, h2, h3⟩)
      · exact Or.inr (Or.inl h)
      · exact Or.inl h
      · exact Or.inr (Or.inr ⟨fun h => h1 h.symm, h3, h2⟩)
    · rintro (h | h | ⟨h1, h2, h3⟩)
      · exact Or.inr (Or.inl h)
      · exact Or.inl h
      · exact Or.inr (Or.inr ⟨fun h => h1 h.symm, h3, h2⟩)

/-! ## Claim C10: grammar classification never changes the computed segments -/

theorem splitOnDot_ne_nil (l : Name) : splitOnDot l ≠ [] := by
  cases l with
  | nil => simp [splitOnDot]
  | cons c rest =>
    unfold splitOnDot
    split_ifs
    · simp
    · cases splitOnDot rest <;> simp

theorem dotIndexZ_cons (c : Char) (rest : Name) :
    dotIndexZ (c :: rest) =
      if c = '.' then 0 else if dotIndexZ rest < 0 then -1 else dotIndexZ rest + 1 := rfl

theorem dotIndexZ_nonneg_of_mem {l : Name} (h : '.' ∈ l) : 0 ≤ dotIndexZ l := by
  induction l with
  | nil => cases h
  | cons c rest ih =>
    rw [dotIndexZ_cons]
    rcases List.mem_cons.mp h with hc | hm
    · simp [hc.symm]
    · have := ih hm
      split_ifs <;> omega

theorem dotIndexZ_neg_iff (l : Name) : dotIndexZ l < 0 ↔ '.' ∉ l := by
  constructor
  · intro h hm
    exact absurd (dotIndexZ_nonneg_of_mem hm) (by omega)
  · intro hm
    induction l with
    | nil => simp [dotIndexZ]
    | cons c rest ih =>
      rw [dotIndexZ_cons]
      have hc : ¬(c = '.') := fun h => hm (h ▸ List.mem_cons_self c rest)
      have hr := ih (fun h => hm (List.mem_cons_of_mem c h))
      split_ifs <;> omega

theorem splitOnDot_of_no_dot {l : Name} (h : '.' ∉ l) : splitOnDot l = [l] := by
  induction l with
  | nil => rfl
  | cons c rest ih =>
    unfold splitOnDot
    have hc : ¬(c = '.') := fun hcc => h (hcc ▸ List.mem_cons_self c rest)
    rw [if_neg hc, ih (fun hm => h (List.mem_cons_of_mem c hm))]

/-- Splitting at the first dot: if the first dot of `l` is at index `i`, then
`split(l, '.') = take i l :: split(drop (i+1) l, '.')`. -/
theorem splitOnDot_first_dot {l : Name} (h : 0 ≤ dotIndexZ l) :
    splitOnDot l =
      l.take (dotIndexZ l).toNat :: splitOnDot (l.drop ((dotIndexZ l).toNat + 1)) := by
  induction l with
  | nil => simp [dotIndexZ] at h
  | cons c rest ih =>
    by_cases hc : c = '.'
    · subst hc
      simp [splitOnDot, dotIndexZ]
    · have hr : 0 ≤ dotIndexZ rest := by
        rw [dotIndexZ_cons, if_neg hc] at h
        split_ifs at h <;> omega
      have hd : dotIndexZ (c :: rest) = dotIndexZ rest + 1 := by
        rw [dotIndexZ_cons, if_neg hc, if_neg (by omega)]
      have htn : (dotIndexZ rest + 1).toNat = (dotIndexZ rest).toNat + 1 := by omega
      rw [hd, htn]
      rw [show splitOnDot (c :: rest) =
            (if c = '.' then [] :: splitOnDot rest
             else match splitOnDot rest with
                  | [] => [[c]]
                  | g :: gs => (c :: g) :: gs) from rfl]
      rw [if_neg hc, ih hr]
      simp

theorem dotIndexZ_eq_zero_iff (c : Char) (rest : Name) :
    dotIndexZ (c :: rest) = 0 ↔ c = '.' := by
  rw [dotIndexZ_cons]
  split_ifs with h1 h2
  · simp [h1]
  · simp [h1]
  · simp only [iff_false_intro h1, iff_false]
    omega

theorem multiLetterTest_head {c : Char} {rest : Name}
    (h : multiLetterTest (c :: rest) = true) : isUpperAZ c = true := by
  unfold multiLetterTest at h
  simp only [Bool.and_eq_true, decide_eq_true_eq] at h
  obtain ⟨h2, _⟩ := h
  by_cases hu : isUpperAZ c = true
  · exact hu
  · exfalso
    rw [List.takeWhile_cons, if_neg (by simp [hu])] at h2
    simp at h2

theorem upper_ne_dot {c : Char} (h : isUpperAZ c = true) : c ≠ '.' := by
  intro hc
  subst hc
  simp [isUpperAZ] at h

/-- The `parts` of the multi-letter branch agree with a plain split: when the
first dot sits at a positive index, the root prefix plus the split of the
suffix is the split of the whole. -/
theorem take_cons_split_eq_split {l : Name} (h : 0 < dotIndexZ l) :
    l.take (dotIndexZ l).toNat :: splitOnDot (l.drop ((dotIndexZ l).toNat + 1)) =
      splitOnDot l :=
  (splitOnDot_first_dot (by omega)).symm

theorem joinDots_cons (p : Name) (ps : List Name) :
    joinDots (p :: ps) = if ps = [] then p else p ++ '.' :: joinDots ps := by
  cases ps <;> simp [joinDots]

theorem take_ne_nil_of_pos {α : Type} {xs : List α} {n : Nat}
    (hn : 0 < n) (hx : xs ≠ []) : xs.take n ≠ [] := by
  cases xs with
  | nil => exact absurd rfl hx
  | cons a as =>
    cases n with
    | zero => omega
    | succ m => simp

/-- The parent computed by the multi-letter branch equals the dot-join of all
segments but the last. -/
theorem multiParent_eq (rootPart : Name) (numericParts : List Name)
    (hne : numericParts ≠ []) :
    (if numericParts.length > 1 then
       rootPart ++ '.' :: joinDots (numericParts.take (numericParts.length - 1))
     else rootPart) =
      joinDots ((rootPart :: numericParts).take ((rootPart :: numericParts).length - 1)) := by
  have hlen : 0 < numericParts.length := List.length_pos.mpr hne
  by_cases h1 : numericParts.length > 1
  · rw [if_pos h1]
    have : (rootPart :: numericParts).take ((rootPart :: numericParts).length - 1) =
        rootPart :: numericParts.take (numericParts.length - 1) := by
      obtain ⟨k, hk⟩ : ∃ k, numericParts.length = k + 1 := ⟨numericParts.length - 1, by omega⟩
      simp [hk]
    rw [this, joinDots_cons,
      if_neg (take_ne_nil_of_pos (by omega) hne)]
  · rw [if_neg h1]
    have h2 : numericParts.length = 1 := by omega
    have : (rootPart :: numericParts).take ((rootPart :: numericParts).length - 1) =
        [rootPart] := by
      simp [List.length_cons, h2]
    rw [this, joinDots]

/-- **C10.** The special-case multi-letter-root branches of the name parser
produce exactly the same segment list as the plain split-on-dot branch: for
every nonempty name, `parseLineageName(name).parts` and
`extractLineageRoot(name).nameParts` both equal `name.split('.')`, and the
computed parent is the dot-join of all segments but the last (JS `null` when
there is a single segment), so the grammar classification never changes the
computed segments or parent. -/
theorem parse_parts_eq_split (l : Name) (h : l ≠ []) :
    (parseLineageName l).parts = splitOnDot l ∧
    (extractLineageRoot l).nameParts = splitOnDot l ∧
    (parseLineageName l).parent =
      (if (splitOnDot l).length > 1 then
        some (joinDots ((splitOnDot l).take ((splitOnDot l).length - 1)))
      else none) := by
  obtain ⟨c, rest, rfl⟩ : ∃ c rest, l = c :: rest := by
    cases l with
    | nil => exact absurd rfl h
    | cons c rest => exact ⟨c, rest, rfl⟩
  have hsne := splitOnDot_ne_nil (c :: rest)
  -- the parse side
  have hparse : (parseLineageName (c :: rest)).parts = splitOnDot (c :: rest) ∧
      (parseLineageName (c :: rest)).parent =
        (if (splitOnDot (c :: rest)).length > 1 then
          some (joinDots ((splitOnDot (c :: rest)).take ((splitOnDot (c :: rest)).length - 1)))
        else none) := by
    unfold parseLineageName
    rw [if_neg h]
    by_cases hm : multiLetterTest (c :: rest) = true
    · rw [if_pos hm]
      have hcdot : ¬(c = '.') := upper_ne_dot (multiLetterTest_head hm)
      by_cases hdi : dotIndexZ (c :: rest) > 0
      · rw [if_pos hdi]
        have hsplit := take_cons_split_eq_split hdi
        constructor
        · simpa using hsplit
        · simp only
          rw [← hsplit]
          have hnne := splitOnDot_ne_nil ((c :: rest).drop ((dotIndexZ (c :: rest)).toNat + 1))
          rw [multiParent_eq _ _ hnne]
          have : (List.take (dotIndexZ (c :: rest)).toNat (c :: rest) ::
              splitOnDot (List.drop ((dotIndexZ (c :: rest)).toNat + 1) (c :: rest))).length > 1 := by
            have := List.length_pos.mpr hnne
            simp only [List.length_cons]
            omega
          rw [if_pos this]
      · rw [if_neg hdi]
        have hneg : dotIndexZ (c :: rest) < 0 := by
          rcases lt_trichotomy (dotIndexZ (c :: rest)) 0 with hlt | heq | hgt
          · exact hlt
          · exact absurd ((dotIndexZ_eq_zero_iff c rest).mp heq) hcdot
          · exact absurd hgt hdi
        have hnod := (dotIndexZ_neg_iff (c :: rest)).mp hneg
        rw [splitOnDot_of_no_dot hnod]
        simp
    · rw [if_neg hm]
      exact ⟨rfl, rfl⟩
  refine ⟨hparse.1, ?_, hparse.2⟩
  -- the extract side
  unfold extractLineageRoot
  rw [if_neg h]
  by_cases hx : (c :: rest).head? = some 'X'
  · rw [if_pos hx]
    have hcX : c = 'X' := by simpa [List.head?] using hx
    by_cases hcond : (decide ((c :: rest).length > 1) && decide (dotIndexZ (c :: rest) > 0)) = true
    · rw [if_pos hcond]
      simp only [Bool.and_eq_true, decide_eq_true_eq] at hcond
      simpa using take_cons_split_eq_split hcond.2
    · rw [if_neg hcond]
      simp only [Bool.and_eq_true, decide_eq_true_eq, not_and_or, not_lt] at hcond
      have hnod : '.' ∉ (c :: rest) := by
        rcases hcond with hlen | hdi
        · have : rest = [] := by
            cases rest with
            | nil => rfl
            | cons a as => simp at hlen
          subst this
          intro hm
          rcases List.mem_singleton.mp hm with rfl
          simp at hcX
        · rcases lt_or_eq_of_le hdi with hlt | heq
          · exact (dotIndexZ_neg_iff _).mp hlt
          · have := (dotIndexZ_eq_zero_iff c rest).mp heq
            rw [hcX] at this
            simp at this
      rw [splitOnDot_of_no_dot hnod]
  · rw [if_neg hx]
    by_cases hm : multiLetterTest (c :: rest) = true
    · rw [if_pos hm]
      have hcdot : ¬(c = '.') := upper_ne_dot (multiLetterTest_head hm)
      by_cases hdi : dotIndexZ (c :: rest) > 0
      · rw [if_pos hdi]
        simpa using take_cons_split_eq_split hdi
      · rw [if_neg hdi]
        have hneg : dotIndexZ (c :: rest) < 0 := by
          rcases lt_trichotomy (dotIndexZ (c :: rest)) 0 with hlt | heq | hgt
          · exact hlt
          · exact absurd ((dotIndexZ_eq_zero_iff c rest).mp heq) hcdot
          · exact absurd hgt hdi
        rw [splitOnDot_of_no_dot ((dotIndexZ_neg_iff _).mp hneg)]
    · rw [if_neg hm]

/-- Witness for C10 at the concrete name `"AY.4"`. -/
theorem parse_parts_eq_split_witness :
    (parseLineageName "AY.4".data).parts = splitOnDot "AY.4".data ∧
    (extractLineageRoot "AY.4".data).nameParts = splitOnDot "AY.4".data ∧
    (parseLineageName "AY.4".data).parent =
      (if (splitOnDot "AY.4".data).length > 1 then
        some (joinDots ((splitOnDot "AY.4".data).take ((splitOnDot "AY.4".data).length - 1)))
      else none) :=
  parse_parts_eq_split "AY.4".data (by decide)

example : True := trivial

/-! ## Claim C8: `isPangoLineage` decides `^[A-Za-z](\.\d+)*$` -/

/-- A nonempty all-digit segment — the `\d+` of one `(\.\d+)` group. -/
def IsDigitGroup (g : Name) : Prop := g ≠ [] ∧ ∀ ch ∈ g, isDigitC ch = true

/-- The concatenation `(\.\d+)*`: each group contributes a dot and its
digits. -/
def pangoGroups (gs : List Name) : Name := (gs.map (fun g => '.' :: g)).flatten

/-- The language of `^[A-Za-z](\.\d+)*$`, stated structurally from the spec's
words: a single letter followed by zero or more dot-plus-digits groups. -/
def PangoShaped (l : Name) : Prop :=
  ∃ (c : Char) (gs : List Name),
    isAsciiLetter c = true ∧ (∀ g ∈ gs, IsDigitGroup g) ∧ l = c :: pangoGroups gs

theorem pangoGroups_nil : pangoGroups [] = [] := rfl

theorem pangoGroups_cons (g : Name) (gs : List Name) :
    pangoGroups (g :: gs) = '.' :: (g ++ pangoGroups gs) := by
  simp [pangoGroups]

/-- Simultaneous characterisation of the scanner's three modes. -/
theorem pangoScan_iff (l : Name) :
    (pangoScan 0 l = true ↔
      ∃ gs, (∀ g ∈ gs, IsDigitGroup g) ∧ l = pangoGroups gs) ∧
    (pangoScan 1 l = true ↔
      ∃ g gs, IsDigitGroup g ∧ (∀ g2 ∈ gs, IsDigitGroup g2) ∧ l = g ++ pangoGroups gs) ∧
    (pangoScan 2 l = true ↔
      ∃ g gs, (∀ ch ∈ g, isDigitC ch = true) ∧ (∀ g2 ∈ gs, IsDigitGroup g2) ∧
        l = g ++ pangoGroups gs) := by
  induction l with
  | nil =>
    refine ⟨?_, ?_, ?_⟩
    · simp only [pangoScan, decide_eq_true_eq]
      constructor
      · intro _
        exact ⟨[], by simp, rfl⟩
      · intro _
        decide
    · simp only [pangoScan, decide_eq_true_eq]
      constructor
      · intro hf
        exact absurd rfl hf
      · rintro ⟨g, gs, ⟨hne, _⟩, _, heq⟩
        exact absurd (List.append_eq_nil.mp heq.symm).1 hne
    · simp only [pangoScan, decide_eq_true_eq]
      constructor
      · intro _
        exact ⟨[], [], by simp, by simp, rfl⟩
      · intro _
        decide
  | cons c rest ih =>
    obtain ⟨ih0, ih1, ih2⟩ := ih
    refine ⟨?_, ?_, ?_⟩
    · -- mode 0: expect `.` or end
      show (decide (c = '.') && pangoScan 1 rest) = true ↔ _
      rw [Bool.and_eq_true, decide_eq_true_eq, ih1]
      constructor
      · rintro ⟨rfl, g, gs, hg, hgs, rfl⟩
        refine ⟨g :: gs, ?_, ?_⟩
        · intro g2 hg2
          rcases List.mem_cons.mp hg2 with rfl | hmem
          · exact hg
          · exact hgs g2 hmem
        · rw [pangoGroups_cons]
      · rintro ⟨gs, hgs, heq⟩
        cases gs with
        | nil => simp [pangoGroups_nil] at heq
        | cons g gs2 =>
          rw [pangoGroups_cons] at heq
          injection heq with h1 h2
          exact ⟨h1, g, gs2, hgs g (List.mem_cons_self g gs2),
            fun g2 hm => hgs g2 (List.mem_cons_of_mem g hm), h2⟩
    · -- mode 1: just after a dot, expect a digit
      show (isDigitC c && pangoScan 2 rest) = true ↔ _
      rw [Bool.and_eq_true, ih2]
      constructor
      · rintro ⟨hd, g, gs, hgd, hgs, rfl⟩
        refine ⟨c :: g, gs, ⟨by simp, ?_⟩, hgs, rfl⟩
        intro ch hch
        rcases List.mem_cons.mp hch with rfl | hmem
        · exact hd
        · exact hgd ch hmem
      · rintro ⟨g, gs, ⟨hne, hdig⟩, hgs, heq⟩
        cases g with
        | nil => exact absurd rfl hne
        | cons d g2 =>
          rw [List.cons_append] at heq
          injection heq with h1 h2
          subst h1
          exact ⟨hdig c (List.mem_cons_self c g2),
            g2, gs, fun ch hm => hdig ch (List.mem_cons_of_mem c hm), hgs, h2⟩
    · -- mode 2: inside a digit run
      by_cases hc : c = '.'
      · subst hc
        show pangoScan 1 rest = true ↔ _
        rw [ih1]
        constructor
        · rintro ⟨g, gs, hg, hgs, rfl⟩
          refine ⟨[], g :: gs, by simp, ?_, by rw [pangoGroups_cons]; rfl⟩
          intro g2 hm
          rcases List.mem_cons.mp hm with rfl | hmem
          · exact hg
          · exact hgs g2 hmem
        · rintro ⟨g, gs, hgd, hgs, heq⟩
          cases g with
          | cons d g2 =>
            rw [List.cons_append] at heq
            injection heq with h1 h2
            have := hgd d (List.mem_cons_self d g2)
            rw [← h1] at this
            simp [isDigitC] at this
          | nil =>
            rw [List.nil_append] at heq
            cases gs with
            | nil => simp [pangoGroups_nil] at heq
            | cons g2 gs2 =>
              rw [pangoGroups_cons] at heq
              injection heq with h1 h2
              exact ⟨g2, gs2, hgs g2 (List.mem_cons_self g2 gs2),
                fun g3 hm => hgs g3 (List.mem_cons_of_mem g2 hm), h2⟩
      · show (if c = '.' then pangoScan 1 rest else isDigitC c && pangoScan 2 rest) = true ↔ _
        rw [if_neg hc, Bool.and_eq_true, ih2]
        constructor
        · rintro ⟨hd, g, gs, hgd, hgs, rfl⟩
          refine ⟨c :: g, gs, ?_, hgs, rfl⟩
          intro ch hch
          rcases List.mem_cons.mp hch with rfl | hmem
          · exact hd
          · exact hgd ch hmem
        · rintro ⟨g, gs, hgd, hgs, heq⟩
          cases g with
          | nil =>
            rw [List.nil_append] at heq
            cases gs with
            | nil => simp [pangoGroups_nil] at heq
            | cons g2 gs2 =>
              rw [pangoGroups_cons] at heq
              injection heq with h1 _
              exact absurd h1 hc
          | cons d g2 =>
            rw [List.cons_append] at heq
            injection heq with h1 h2
            subst h1
            exact ⟨hgd c (List.mem_cons_self c g2),
              g2, gs, fun ch hm => hgd ch (List.mem_cons_of_mem c hm), hgs, h2⟩

/-- **C8.** `isPangoLineage` returns `true` exactly on names of the shape
"single letter followed by zero or more dot-plus-digits groups"
(`^[A-Za-z](\.\d+)*$`); in particular it returns `false` for the empty
(absent) input and for the multi-letter-root and recombinant names `"AY.4"`
and `"XBB.1.5"`, which the general parser accepts. -/
theorem isPangoLineage_iff_shape :
    (∀ l : Name, isPangoLineage l = true ↔ PangoShaped l) ∧
    isPangoLineage [] = false ∧
    isPangoLineage "AY.4".data = false ∧
    isPangoLineage "XBB.1.5".data = false := by
  refine ⟨?_, by decide, by decide, by decide⟩
  intro l
  cases l with
  | nil =>
    simp only [isPangoLineage]
    constructor
    · intro h
      cases h
    · rintro ⟨c, gs, _, _, heq⟩
      cases heq
  | cons c rest =>
    show (isAsciiLetter c && pangoScan 0 rest) = true ↔ _
    rw [Bool.and_eq_true, (pangoScan_iff rest).1]
    constructor
    · rintro ⟨hl, gs, hgs, rfl⟩
      exact ⟨c, gs, hl, hgs, rfl⟩
    · rintro ⟨c2, gs, hl, hgs, heq⟩
      injection heq with h1 h2
      subst h1
      exact ⟨hl, gs, hgs, h2⟩

/-! ## Infrastructure for the hierarchy-builder claims (C1, C4, C6) -/

theorem mem_insertIfAbsent {m : List NodeData} {nd nd2 : NodeData}
    (h : nd2 ∈ insertIfAbsent m nd) : nd2 ∈ m ∨ nd2 = nd := by
  unfold insertIfAbsent at h
  split_ifs at h
  · exact Or.inl h
  · rcases List.mem_append.mp h with hm | hm
    · exact Or.inl hm
    · exact Or.inr (List.mem_singleton.mp hm)

/-- `insertIfAbsent` makes the key present. -/
theorem containsKey_insertIfAbsent (m : List NodeData) (nd : NodeData) :
    (insertIfAbsent m nd).any (fun x => x.name = nd.name) = true := by
  unfold insertIfAbsent
  split_ifs with h
  · exact h
  · simp

/-- Keys only accumulate. -/
theorem containsKey_mono {m : List NodeData} {nd : NodeData} {n : Name}
    (h : m.any (fun x => x.name = n) = true) :
    (insertIfAbsent m nd).any (fun x => x.name = n) = true := by
  unfold insertIfAbsent
  split_ifs
  · exact h
  · simp only [List.any_append, h, Bool.true_or]

/-- Shorthand for the synthesized-ancestor fold of the first pass. -/
def parentsFold (m : List NodeData) (ps : List Name) : List NodeData :=
  ps.foldl (fun m2 p => insertIfAbsent m2 (mkSynthNode p)) m

theorem mem_parentsFold {ps : List Name} {m : List NodeData} {nd : NodeData}
    (h : nd ∈ parentsFold m ps) :
    nd ∈ m ∨ ∃ p ∈ ps, nd = mkSynthNode p ∧ m.any (fun x => x.name = p) = false := by
  induction ps generalizing m with
  | nil => exact Or.inl h
  | cons p ps2 ih =>
    have h2 : nd ∈ parentsFold (insertIfAbsent m (mkSynthNode p)) ps2 := h
    rcases ih h2 with hm | ⟨p2, hp2, hnd, hk⟩
    · rcases mem_insertIfAbsent hm with hm2 | rfl
      · exact Or.inl hm2
      · rcases hck : m.any (fun x => x.name = (mkSynthNode p).name) with _ | _
        · exact Or.inr ⟨p, List.mem_cons_self p ps2, rfl, hck⟩
        · left
          unfold insertIfAbsent at hm
          rw [if_pos hck] at hm
          exact hm
    · refine Or.inr ⟨p2, List.mem_cons_of_mem p hp2, hnd, ?_⟩
      rcases hck : m.any (fun x => x.name = p2) with _ | _
      · rfl
      · rw [containsKey_mono hck] at hk
        cases hk

theorem containsKey_parentsFold_mono {ps : List Name} {m : List NodeData} {n : Name}
    (h : m.any (fun x => x.name = n) = true) :
    (parentsFold m ps).any (fun x => x.name = n) = true := by
  induction ps generalizing m with
  | nil => exact h
  | cons p ps2 ih => exact ih (containsKey_mono h)

theorem containsKey_parentsFold_of_mem {ps : List Name} {m : List NodeData} {p : Name}
    (h : p ∈ ps) : (parentsFold m ps).any (fun x => x.name = p) = true := by
  induction ps generalizing m with
  | nil => cases h
  | cons q ps2 ih =>
    rcases List.mem_cons.mp h with rfl | hm
    · show (parentsFold (insertIfAbsent m (mkSynthNode p)) ps2).any
          (fun x => x.name = p) = true
      exact containsKey_parentsFold_mono (containsKey_insertIfAbsent m (mkSynthNode p))
    · exact ih hm

/-- One step of the first-pass fold. -/
def pass1Step (nt : NodeTypes) (m : List NodeData) (obs : LineageObs) : List NodeData :=
  if obs.value = [] then m
  else parentsFold (insertIfAbsent m (mkObservedNode obs nt)) (getAllParentLineages obs.value)

theorem pass1_eq_foldl (lineages : List LineageObs) (nt : NodeTypes) :
    pass1 lineages nt = lineages.foldl (pass1Step nt) [] := rfl

/-- Every map entry is either a created observed node or a synthesized
ancestor node. -/
theorem mem_pass1_shape {ls : List LineageObs} {nt : NodeTypes} {nd : NodeData}
    (h : nd ∈ pass1 ls nt) :
    (∃ obs ∈ ls, nd = mkObservedNode obs nt) ∨ (∃ p, nd = mkSynthNode p) := by
  rw [pass1_eq_foldl] at h
  suffices H : ∀ (l2 : List LineageObs) (m : List NodeData),
      nd ∈ l2.foldl (pass1Step nt) m →
      nd ∈ m ∨ (∃ obs ∈ l2, nd = mkObservedNode obs nt) ∨ (∃ p, nd = mkSynthNode p) by
    rcases H ls [] h with hm | hrest
    · cases hm
    · exact hrest
  intro l2
  induction l2 with
  | nil => intro m hm; exact Or.inl hm
  | cons obs l3 ih =>
    intro m hm
    rcases ih _ hm with hm2 | hobs | hsynth
    · unfold pass1Step at hm2
      split_ifs at hm2
      · exact Or.inl hm2
      · rcases mem_parentsFold hm2 with hm3 | ⟨p, _, rfl, _⟩
        · rcases mem_insertIfAbsent hm3 with hm4 | rfl
          · exact Or.inl hm4
          · exact Or.inr (Or.inl ⟨obs, List.mem_cons_self obs l3, rfl⟩)
        · exact Or.inr (Or.inr ⟨p, rfl⟩)
    · obtain ⟨obs2, hobs2, rfl⟩ := hobs
      exact Or.inr (Or.inl ⟨obs2, List.mem_cons_of_mem obs hobs2, rfl⟩)
    · exact Or.inr (Or.inr hsynth)

/-- Before accumulation every node's `count` equals its `originalCount`, and
`totalTaxa` is undefined. -/
theorem pass1_count_eq_orig {ls : List LineageObs} {nt : NodeTypes} {nd : NodeData}
    (h : nd ∈ pass1 ls nt) : nd.count = nd.originalCount ∧ nd.totalTaxa = none := by
  rcases mem_pass1_shape h with ⟨obs, _, rfl⟩ | ⟨p, rfl⟩
  · exact ⟨rfl, rfl⟩
  · exact ⟨rfl, rfl⟩

/-- Inversion for `Subtree`. -/
theorem subtree_cases {t s : LTree} (h : Subtree t s) :
    s = t ∨ ∃ c ∈ t.children, Subtree c s := by
  cases h with
  | refl => exact Or.inl rfl
  | step hc hs => exact Or.inr ⟨_, hc, hs⟩

theorem subtree_trans {a b c : LTree} (h1 : Subtree a b) (h2 : Subtree b c) : Subtree a c := by
  induction h1 with
  | refl => exact h2
  | step hc _ ih => exact Subtree.step hc (ih h2)

/-- The property "every node of the tree satisfies `P` of its data". -/
def AllData (P : NodeData → Prop) (t : LTree) : Prop :=
  ∀ s, Subtree t s → P s.data

theorem childObjs_subset {m : List NodeData} {n : Name} {c : NodeData}
    (h : c ∈ childObjs m n) : c ∈ m := List.mem_of_mem_filter h

theorem allData_buildTree {m : List NodeData} {P : NodeData → Prop}
    (hm : ∀ x ∈ m, P x) :
    ∀ (f : Nat) (nd : NodeData), P nd → AllData P (buildTree m f nd) := by
  intro f
  induction f with
  | zero =>
    intro nd hnd s hs
    rcases subtree_cases hs with rfl | ⟨c, hc, _⟩
    · exact hnd
    · cases hc
  | succ f ih =>
    intro nd hnd s hs
    rcases subtree_cases hs with rfl | ⟨c, hc, hcs⟩
    · exact hnd
    · simp only [buildTree, LTree.children] at hc
      obtain ⟨nd2, hnd2, rfl⟩ := List.mem_map.mp hc
      exact ih nd2 (hm nd2 (childObjs_subset hnd2)) s hcs

/-- Fuel is strictly deeper than the tree: enough for `accumulate` to process
every node. -/
inductive Deep : Nat → LTree → Prop where
  | mk {f : Nat} {d : NodeData} {cs : List LTree} :
      (∀ c ∈ cs, Deep f c) → Deep (f + 1) (.node d cs)

theorem deep_buildTree (m : List NodeData) :
    ∀ (f : Nat) (nd : NodeData), Deep (f + 1) (buildTree m f nd) := by
  intro f
  induction f with
  | zero =>
    intro nd
    exact Deep.mk (by intro c hc; cases hc)
  | succ f ih =>
    intro nd
    refine Deep.mk ?_
    intro c hc
    obtain ⟨nd2, _, rfl⟩ := List.mem_map.mp hc
    exact ih nd2

/-- The C1 invariant on a tree: every node's `count` is its `originalCount`
plus the sum of the `count`s of its children. -/
def CountInv (t : LTree) : Prop :=
  ∀ s, Subtree t s →
    s.data.count = s.data.originalCount + (s.children.map (fun c => c.data.count)).sum

/-- The C6 invariant on a tree: every node with children has
`totalTaxa = sampleCount + internalCount` (of its aggregated fields). -/
def TaxaInv (t : LTree) : Prop :=
  ∀ s, Subtree t s → s.children ≠ [] →
    s.data.totalTaxa = some (s.data.sampleCount + s.data.internalCount)

theorem accumulate_spec :
    ∀ {f : Nat} {t : LTree}, Deep f t → AllData (fun d => d.count = d.originalCount) t →
      (accumulate f t).2.1 = (accumulate f t).1.data.count ∧
      CountInv (accumulate f t).1 ∧ TaxaInv (accumulate f t).1 := by
  intro f t hdeep
  induction hdeep with
  | @mk f d cs hcs ih =>
    intro hdata
    by_cases hempty : cs.isEmpty
    · have hcnil : cs = [] := List.isEmpty_iff.mp hempty
      subst hcnil
      simp only [accumulate, if_pos rfl]
      refine ⟨(hdata _ (Subtree.refl _)).symm, ?_, ?_⟩
      · intro s hs
        rcases subtree_cases hs with rfl | ⟨c, hc, _⟩
        · simpa [LTree.children, LTree.data] using hdata _ (Subtree.refl _)
        · cases hc
      · intro s hs
        rcases subtree_cases hs with rfl | ⟨c, hc, _⟩
        · intro hne; exact absurd rfl hne
        · cases hc
    · have heq : accumulate (f + 1) (.node d cs) =
          (let rs := cs.map (accumulate f)
           let totalChildren := (rs.map (fun r => r.2.1)).foldl (· + ·) 0
           let ts := d.sampleCount + (rs.map (fun r => r.2.2.1)).foldl (· + ·) 0
           let ti := d.internalCount + (rs.map (fun r => r.2.2.2)).foldl (· + ·) 0
           let cnt := d.originalCount + totalChildren
           (LTree.node { d with count := cnt, sampleCount := ts, internalCount := ti,
                                totalTaxa := some (ts + ti) }
             (rs.map (fun r => r.1)), cnt, ts, ti)) := by
        simp only [accumulate, if_neg hempty]
      have hchildData : ∀ c ∈ cs, AllData (fun d2 => d2.count = d2.originalCount) c := by
        intro c hc s hs
        exact hdata s (Subtree.step (by simpa [LTree.children] using hc) hs)
      have ihc := fun c hc => ih c hc (hchildData c hc)
      rw [heq]
      simp only
      refine ⟨rfl, ?_, ?_⟩
      · intro s hs
        rcases subtree_cases hs with rfl | ⟨c, hc, hcs2⟩
        · simp only [LTree.data, LTree.children, List.map_map, List.sum_eq_foldl]
          congr 1
          refine congrArg (List.foldl (fun x1 x2 => x1 + x2) 0) ?_
          refine List.map_congr_left ?_
          intro r hr
          exact (ihc r hr).1
        · simp only [LTree.children] at hc
          obtain ⟨r, hr, rfl⟩ := List.mem_map.mp hc
          obtain ⟨c0, hc0, rfl⟩ := List.mem_map.mp hr
          exact ((ihc c0 hc0).2.1) s hcs2
      · intro s hs
        rcases subtree_cases hs with rfl | ⟨c, hc, hcs2⟩
        · intro _
          rfl
        · simp only [LTree.children] at hc
          obtain ⟨r, hr, rfl⟩ := List.mem_map.mp hc
          obtain ⟨c0, hc0, rfl⟩ := List.mem_map.mp hr
          exact ((ihc c0 hc0).2.2) s hcs2

/-! Sorting preserves node data and permutes children. -/

theorem insertByCount_perm (x : LTree) (l : List LTree) :
    List.Perm (insertByCount x l) (x :: l) := by
  induction l with
  | nil => exact List.Perm.refl _
  | cons y ys ih =>
    unfold insertByCount
    split_ifs
    · exact List.Perm.refl _
    · exact ((ih.cons y).trans (List.Perm.swap x y ys))

theorem sortByCountList_perm (l : List LTree) :
    List.Perm (sortByCountList l) l := by
  induction l with
  | nil => exact List.Perm.refl _
  | cons x xs ih => exact (insertByCount_perm x (sortByCountList xs)).trans (ih.cons x)

theorem mem_sortByCountList {x : LTree} {l : List LTree} (h : x ∈ sortByCountList l) :
    x ∈ l := (sortByCountList_perm l).mem_iff.mp h

theorem sortChildrenT_data (f : Nat) (t : LTree) : (sortChildrenT f t).data = t.data := by
  cases f with
  | zero => rfl
  | succ f2 => cases t with | node d cs => rfl

theorem sortChildrenT_children_counts (f : Nat) (t : LTree) :
    List.Perm ((sortChildrenT f t).children.map (fun c => c.data.count))
      (t.children.map (fun c => c.data.count)) := by
  cases f with
  | zero => exact List.Perm.refl _
  | succ f2 =>
    cases t with
    | node d cs =>
      show List.Perm (((sortByCountList cs).map (sortChildrenT f2)).map
        (fun c => c.data.count)) (cs.map (fun c => c.data.count))
      rw [List.map_map]
      have h1 : ((sortByCountList cs).map ((fun c => c.data.count) ∘ sortChildrenT f2)) =
          (sortByCountList cs).map (fun c => c.data.count) := by
        refine List.map_congr_left ?_
        intro c _
        show (sortChildrenT f2 c).data.count = c.data.count
        rw [sortChildrenT_data]
      rw [h1]
      exact (sortByCountList_perm cs).map _

theorem sortChildrenT_children_nil_iff (f : Nat) (t : LTree) :
    (sortChildrenT f t).children = [] ↔ t.children = [] := by
  cases f with
  | zero => exact Iff.rfl
  | succ f2 =>
    cases t with
    | node d cs =>
      show ((sortByCountList cs).map (sortChildrenT f2)) = [] ↔ cs = []
      rw [List.map_eq_nil_iff]
      constructor
      · intro h
        have := sortByCountList_perm cs
        rw [h] at this
        exact this.symm.eq_nil
      · intro h
        subst h
        rfl

/-- Every node of the sorted tree is the sorted image of a node of the
original. -/
theorem subtree_sortChildrenT {f : Nat} {t s : LTree}
    (h : Subtree (sortChildrenT f t) s) :
    ∃ (f2 : Nat) (s0 : LTree), Subtree t s0 ∧ s = sortChildrenT f2 s0 := by
  induction f generalizing t s with
  | zero => exact ⟨0, s, h, rfl⟩
  | succ f2 ih =>
    cases t with
    | node d cs =>
      rcases subtree_cases h with rfl | ⟨c, hc, hcs⟩
      · exact ⟨f2 + 1, .node d cs, Subtree.refl _, rfl⟩
      · simp only [sortChildrenT, LTree.children] at hc
        obtain ⟨c0, hc0, rfl⟩ := List.mem_map.mp hc
        obtain ⟨f3, s0, hs0, rfl⟩ := ih hcs
        exact ⟨f3, s0,
          Subtree.step (by simpa [LTree.children] using mem_sortByCountList hc0) hs0,
          rfl⟩

theorem countInv_sortChildrenT {f : Nat} {t : LTree} (h : CountInv t) :
    CountInv (sortChildrenT f t) := by
  intro s hs
  obtain ⟨f2, s0, hs0, rfl⟩ := subtree_sortChildrenT hs
  rw [sortChildrenT_data, (sortChildrenT_children_counts f2 s0).sum_eq]
  exact h s0 hs0

theorem taxaInv_sortChildrenT {f : Nat} {t : LTree} (h : TaxaInv t) :
    TaxaInv (sortChildrenT f t) := by
  intro s hs hne
  obtain ⟨f2, s0, hs0, rfl⟩ := subtree_sortChildrenT hs
  rw [sortChildrenT_data]
  refine h s0 hs0 ?_
  intro hnil
  exact hne (by rw [(sortChildrenT_children_nil_iff f2 s0)]; exact hnil)

/-- Destructuring a member of the built forest: every returned root is the
sorted image of the accumulated tree built below some map node. -/
theorem mem_organize {ls : List LineageObs} {nt : NodeTypes} {t : LTree}
    (h : t ∈ organizeLineageHierarchy ls nt) :
    ∃ nd ∈ pass1 ls nt,
      t = sortChildrenT ((pass1 ls nt).length + 1)
        ((accumulate ((pass1 ls nt).length + 1 + 1)
          (buildTree (pass1 ls nt) ((pass1 ls nt).length + 1) nd)).1) := by
  unfold organizeLineageHierarchy at h
  split_ifs at h with hempty
  · cases h
  · simp only at h
    obtain ⟨t1, ht1, rfl⟩ := List.mem_map.mp h
    have ht1b := mem_sortByCountList ht1
    obtain ⟨t0, ht0, rfl⟩ := List.mem_map.mp ht1b
    obtain ⟨nd, hnd, rfl⟩ := List.mem_map.mp ht0
    exact ⟨nd, List.mem_of_mem_filter hnd, rfl⟩

/-- **C1.** For every forest returned by `organizeLineageHierarchy` and every
node reachable in it (synthesized zero-count ancestors included), the node's
total count (`count`) equals its own count (`originalCount`) plus the sum of
the total counts of its children. -/
theorem organize_count_invariant (ls : List LineageObs) (nt : NodeTypes) (t : LTree)
    (ht : t ∈ organizeLineageHierarchy ls nt) (s : LTree) (hs : Subtree t s) :
    s.data.count = s.data.originalCount + (s.children.map (fun c => c.data.count)).sum := by
  obtain ⟨nd, hnd, rfl⟩ := mem_organize ht
  have hAll : AllData (fun d => d.count = d.originalCount)
      (buildTree (pass1 ls nt) ((pass1 ls nt).length + 1) nd) :=
    allData_buildTree (fun x hx => (pass1_count_eq_orig hx).1) _ nd
      (pass1_count_eq_orig hnd).1
  have hDeep := deep_buildTree (pass1 ls nt) ((pass1 ls nt).length + 1) nd
  have hspec := accumulate_spec hDeep hAll
  exact countInv_sortChildrenT hspec.2.1 s hs

/-- Witness for C1: the forest built from the single observation
`("B.1", 3)`; its root (the synthesized "B") satisfies the invariant. -/
theorem organize_count_invariant_witness :
    ∃ t ∈ organizeLineageHierarchy [⟨"B.1".data, 3, none⟩] none,
      t.data.count = t.data.originalCount + (t.children.map (fun c => c.data.count)).sum := by
  have hfor : organizeLineageHierarchy [⟨"B.1".data, 3, none⟩] none =
      [LTree.node { name := "B".data, count := 3, originalCount := 0, sampleCount := 3,
                    internalCount := 0,
                    color := some (generatePangoLineageColor "B".data none),
                    isExpanded := false, level := 0, totalTaxa := some 3 }
        [LTree.node { name := "B.1".data, count := 3, originalCount := 3, sampleCount := 3,
                      internalCount := 0, color := none, isExpanded := false, level := 1,
                      totalTaxa := none } []]] := by rfl
  refine
    ⟨LTree.node
        { name := "B".data, count := 3, originalCount := 0, sampleCount := 3,
          internalCount := 0, color := some (generatePangoLineageColor "B".data none),
          isExpanded := false, level := 0, totalTaxa := some 3 }
        [LTree.node
            { name := "B.1".data, count := 3, originalCount := 3, sampleCount := 3,
              internalCount := 0, color := none, isExpanded := false, level := 1,
              totalTaxa := none }
            []],
      ?_, ?_⟩
  · rw [hfor]
    exact List.mem_singleton.mpr rfl
  · exact organize_count_invariant _ _ _
      (by rw [hfor]; exact List.mem_singleton.mpr rfl) _ (Subtree.refl _)

/-- **C6 (amended).** In a built forest, `totalTaxa` is defined exactly by the
accumulation pass: every node with at least one child carries
`totalTaxa = sampleCount + internalCount` (of the aggregated fields).
Childless nodes are never assigned the field (see the counterexample). -/
theorem organize_totalTaxa_nonleaf (ls : List LineageObs) (nt : NodeTypes) (t : LTree)
    (ht : t ∈ organizeLineageHierarchy ls nt) (s : LTree) (hs : Subtree t s)
    (hne : s.children ≠ []) :
    s.data.totalTaxa = some (s.data.sampleCount + s.data.internalCount) := by
  obtain ⟨nd, hnd, rfl⟩ := mem_organize ht
  have hAll : AllData (fun d => d.count = d.originalCount)
      (buildTree (pass1 ls nt) ((pass1 ls nt).length + 1) nd) :=
    allData_buildTree (fun x hx => (pass1_count_eq_orig hx).1) _ nd
      (pass1_count_eq_orig hnd).1
  have hDeep := deep_buildTree (pass1 ls nt) ((pass1 ls nt).length + 1) nd
  have hspec := accumulate_spec hDeep hAll
  exact taxaInv_sortChildrenT hspec.2.2 s hs hne

/-- Witness for C6 (amended) at the root of the `("B.1", 3)` forest (the
synthesized "B" has one child). -/
theorem organize_totalTaxa_nonleaf_witness :
    ∃ t ∈ organizeLineageHierarchy [⟨"B.1".data, 3, none⟩] none,
      t.data.totalTaxa = some (t.data.sampleCount + t.data.internalCount) := by
  have hfor : organizeLineageHierarchy [⟨"B.1".data, 3, none⟩] none =
      [LTree.node { name := "B".data, count := 3, originalCount := 0, sampleCount := 3,
                    internalCount := 0,
                    color := some (generatePangoLineageColor "B".data none),
                    isExpanded := false, level := 0, totalTaxa := some 3 }
        [LTree.node { name := "B.1".data, count := 3, originalCount := 3, sampleCount := 3,
                      internalCount := 0, color := none, isExpanded := false, level := 1,
                      totalTaxa := none } []]] := by rfl
  refine
    ⟨LTree.node
        { name := "B".data, count := 3, originalCount := 0, sampleCount := 3,
          internalCount := 0, color := some (generatePangoLineageColor "B".data none),
          isExpanded := false, level := 0, totalTaxa := some 3 }
        [LTree.node
            { name := "B.1".data, count := 3, originalCount := 3, sampleCount := 3,
              internalCount := 0, color := none, isExpanded := false, level := 1,
              totalTaxa := none }
            []],
      ?_, ?_⟩
  · rw [hfor]
    exact List.mem_singleton.mpr rfl
  · exact organize_totalTaxa_nonleaf _ _ _
      (by rw [hfor]; exact List.mem_singleton.mpr rfl) _ (Subtree.refl _)
      (by simp [LTree.children])

/-- **C6 counterexample.** In the forest built from the single observation
`("B", 5)` the root "B" is a node of the forest (a leaf), and its `totalTaxa`
field is undefined (`none`), not `sampleCount + internalCount`: the claim
fails for leaf nodes, whose early return in `accumulateChildCounts` never
assigns `totalTaxa`. -/
theorem organize_totalTaxa_leaf_cex :
    (organizeLineageHierarchy [⟨"B".data, 5, none⟩] none).map
        (fun t => (t.data.totalTaxa, t.data.sampleCount, t.data.internalCount)) =
      [(none, 5, 0)] ∧
    (none : Option Int) ≠ some (5 + 0) := by
  exact ⟨by rfl, by decide⟩

/-! ## Claims C2, C3: concrete scenarios -/

/-- **C2.** Building the hierarchy from exactly the observations
`[("B",5), ("B.1",3), ("B.1.1",2)]` (all samples — no `nodeTypes` tags) yields
one root "B" with own count 5 and total count 10, whose only child "B.1" has
own count 3 and total count 5, whose only child "B.1.1" has own count 2 and
total count 2. -/
theorem organize_scenario_chain :
    organizeLineageHierarchy
      [⟨"B".data, 5, none⟩, ⟨"B.1".data, 3, none⟩, ⟨"B.1.1".data, 2, none⟩] none =
    [.node { name := "B".data, count := 10, originalCount := 5, sampleCount := 10,
             internalCount := 0, color := none, isExpanded := false, level := 0,
             totalTaxa := some 10 }
      [.node { name := "B.1".data, count := 5, originalCount := 3, sampleCount := 5,
               internalCount := 0, color := none, isExpanded := false, level := 1,
               totalTaxa := some 5 }
        [.node { name := "B.1.1".data, count := 2, originalCount := 2, sampleCount := 2,
                 internalCount := 0, color := none, isExpanded := false, level := 2,
                 totalTaxa := none } []]]] := by rfl

/-- **C3.** Building the hierarchy from the single observation
`("AY.4", 7, sample)` synthesizes the absent ancestor "AY" as a zero-own-count
node whose colour is assigned eagerly by `generatePangoLineageColor` from the
name alone, and yields one root "AY" (own count 0, total count 7) whose single
child "AY.4" has own count 7 and total count 7. -/
theorem organize_scenario_synth :
    organizeLineageHierarchy [⟨"AY.4".data, 7, none⟩] none =
    [.node { name := "AY".data, count := 7, originalCount := 0, sampleCount := 7,
             internalCount := 0,
             color := some (generatePangoLineageColor "AY".data none),
             isExpanded := false, level := 0, totalTaxa := some 7 }
      [.node { name := "AY.4".data, count := 7, originalCount := 7, sampleCount := 7,
               internalCount := 0, color := none, isExpanded := false, level := 1,
               totalTaxa := none } []]] := by rfl

/-! ## Claim C5: order dependence of the builder (code bug) -/

/-- **C5 (failing input).** The two observation sequences are permutations of
the same multiset, yet the built forests disagree on the counts of the node
"B": when "B.1" is processed first, "B" is created as a zero-count synthesized
ancestor, and the later real observation `("B", 5)` is silently dropped by the
`if (!lineageMap[lineage.value])` guard of the first pass.  One order yields
`count = 8, originalCount = 5` for "B", the other `count = 3,
originalCount = 0`. -/
theorem organize_order_dependent :
    List.Perm [(⟨"B".data, 5, none⟩ : LineageObs), ⟨"B.1".data, 3, none⟩]
      [⟨"B.1".data, 3, none⟩, ⟨"B".data, 5, none⟩] ∧
    (organizeLineageHierarchy [⟨"B".data, 5, none⟩, ⟨"B.1".data, 3, none⟩] none).map
        (fun t => (t.data.name, t.data.count, t.data.originalCount)) =
      [("B".data, 8, 5)] ∧
    (organizeLineageHierarchy [⟨"B.1".data, 3, none⟩, ⟨"B".data, 5, none⟩] none).map
        (fun t => (t.data.name, t.data.count, t.data.originalCount)) =
      [("B".data, 3, 0)] ∧
    (8 : Int) ≠ 3 := by
  exact ⟨List.Perm.swap _ _ _, by rfl, by rfl, by decide⟩

/-! ## Claim C4: duplicate names (corrected: first introduction wins) -/

/-- **C4 counterexample.** For the input `[("B",5), ("B",3)]` the claim says
the node "B" gets own count `5 + 3 = 8`; the code keeps `5` (the second entry
is dropped by the `if (!lineageMap[lineage.value])` guard). -/
theorem organize_duplicate_cex :
    (organizeLineageHierarchy [⟨"B".data, 5, none⟩, ⟨"B".data, 3, none⟩] none).map
        (fun t => (t.data.name, t.data.originalCount)) =
      [("B".data, 5)] ∧
    (5 : Int) ≠ 5 + 3 := by
  exact ⟨by rfl, by decide⟩

/-- The own count a name receives from the first pass: scanning the
observations in order, the first entry that introduces the name decides it —
the entry's own count if the name is first seen as an observation, `0` if it
is first synthesized as an ancestor of an earlier-processed observation;
later entries for the name are ignored. -/
def introCount : List LineageObs → Name → Option Int
  | [], _ => none
  | obs :: rest, n =>
    if obs.value = [] then introCount rest n
    else if obs.value = n then some obs.count
    else if n ∈ getAllParentLineages obs.value then some 0
    else introCount rest n

theorem mem_insertIfAbsent_strong {m : List NodeData} {nd nd2 : NodeData}
    (h : nd2 ∈ insertIfAbsent m nd) :
    nd2 ∈ m ∨ (nd2 = nd ∧ m.any (fun x => x.name = nd.name) = false) := by
  unfold insertIfAbsent at h
  split_ifs at h with hk
  · exact Or.inl h
  · rcases List.mem_append.mp h with hm | hm
    · exact Or.inl hm
    · exact Or.inr ⟨List.mem_singleton.mp hm, by simpa using hk⟩

theorem containsKey_pass1Step_mono {nt : NodeTypes} {m : List NodeData}
    {obs : LineageObs} {n : Name} (h : m.any (fun x => x.name = n) = true) :
    (pass1Step nt m obs).any (fun x => x.name = n) = true := by
  unfold pass1Step
  split_ifs
  · exact h
  · exact containsKey_parentsFold_mono (containsKey_mono h)

theorem containsKey_pass1Step_value {nt : NodeTypes} {m : List NodeData}
    {obs : LineageObs} (h : obs.value ≠ []) :
    (pass1Step nt m obs).any (fun x => x.name = obs.value) = true := by
  unfold pass1Step
  rw [if_neg h]
  exact containsKey_parentsFold_mono (containsKey_insertIfAbsent m (mkObservedNode obs nt))

theorem containsKey_pass1Step_parent {nt : NodeTypes} {m : List NodeData}
    {obs : LineageObs} {p : Name} (h : obs.value ≠ [])
    (hp : p ∈ getAllParentLineages obs.value) :
    (pass1Step nt m obs).any (fun x => x.name = p) = true := by
  unfold pass1Step
  rw [if_neg h]
  exact containsKey_parentsFold_of_mem hp

/-- The strengthened fold invariant connecting the first pass with
`introCount`. -/
theorem introCount_foldl {nt : NodeTypes} :
    ∀ (ls : List LineageObs) (m : List NodeData) (nd : NodeData),
      nd ∈ ls.foldl (pass1Step nt) m →
      nd ∈ m ∨ (m.any (fun x => x.name = nd.name) = false ∧
        introCount ls nd.name = some nd.originalCount) := by
  intro ls
  induction ls with
  | nil => intro m nd h; exact Or.inl h
  | cons obs ls2 ih =>
    intro m nd h
    have h2 : nd ∈ ls2.foldl (pass1Step nt) (pass1Step nt m obs) := h
    rcases ih _ _ h2 with hm | ⟨hkey, hic⟩
    · -- the node already exists after this step
      unfold pass1Step at hm
      split_ifs at hm with hval
      · -- empty value: step is the identity, intro scan skips it
        rcases Classical.em (nd ∈ m) with hin | hout
        · exact Or.inl hin
        · exact absurd hm hout
      · rcases mem_parentsFold hm with hm2 | ⟨p, hp, rfl, hkabs⟩
        · rcases mem_insertIfAbsent_strong hm2 with hm3 | ⟨rfl, hkobs⟩
          · exact Or.inl hm3
          · refine Or.inr ⟨hkobs, ?_⟩
            unfold introCount
            rw [show (mkObservedNode obs nt).name = obs.value from rfl, if_neg hval, if_pos rfl]
            rfl
        · -- a synthesized ancestor: the key was absent even from `m`
          have hkm : m.any (fun x => x.name = p) = false := by
            rcases hk2 : m.any (fun x => x.name = p) with _ | _
            · rfl
            · rw [containsKey_mono hk2] at hkabs
              cases hkabs
          refine Or.inr ⟨hkm, ?_⟩
          have hpv : p ≠ obs.value := by
            intro rfl2
            have hci := containsKey_insertIfAbsent m (mkObservedNode obs nt)
            rw [show (mkObservedNode obs nt).name = obs.value from rfl, ← rfl2] at hci
            rw [hci] at hkabs
            cases hkabs
          unfold introCount
          rw [show (mkSynthNode p).name = p from rfl, if_neg hval,
            if_neg (fun hh => hpv hh.symm), if_pos hp]
          rfl
    · -- the node appears later: this step does not introduce its key
      have hkm : m.any (fun x => x.name = nd.name) = false := by
        rcases hk2 : m.any (fun x => x.name = nd.name) with _ | _
        · rfl
        · rw [containsKey_pass1Step_mono hk2] at hkey
          cases hkey
      refine Or.inr ⟨hkm, ?_⟩
      by_cases hval : obs.value = []
      · unfold introCount
        rw [if_pos hval]
        exact hic
      · have hne : obs.value ≠ nd.name := by
          intro heq
          have hcv := @containsKey_pass1Step_value nt m obs hval
          rw [heq] at hcv
          rw [hcv] at hkey
          cases hkey
        have hnp : nd.name ∉ getAllParentLineages obs.value := by
          intro hp
          have hcv := @containsKey_pass1Step_parent nt m obs nd.name hval hp
          rw [hcv] at hkey
          cases hkey
        unfold introCount
        rw [if_neg hval, if_neg hne, if_neg hnp]
        exact hic

/-- Every node of the first-pass map carries the own count of the entry that
first introduced its name. -/
theorem pass1_introCount {ls : List LineageObs} {nt : NodeTypes} {nd : NodeData}
    (h : nd ∈ pass1 ls nt) : introCount ls nd.name = some nd.originalCount := by
  rw [pass1_eq_foldl] at h
  rcases introCount_foldl ls [] nd h with hm | ⟨_, hic⟩
  · cases hm
  · exact hic

/-- `accumulateChildCounts` rewrites only the aggregated fields: every node of
the processed tree keeps the `name` and `originalCount` of a node of the input
tree. -/
theorem accumulate_subtree_data :
    ∀ (f : Nat) (t s : LTree), Subtree (accumulate f t).1 s →
      ∃ s0, Subtree t s0 ∧ s.data.name = s0.data.name ∧
        s.data.originalCount = s0.data.originalCount := by
  intro f
  induction f with
  | zero =>
    intro t s hs
    exact ⟨s, hs, rfl, rfl⟩
  | succ f ih =>
    intro t s hs
    cases t with
    | node d cs =>
      by_cases hempty : cs.isEmpty
      · have hcnil : cs = [] := List.isEmpty_iff.mp hempty
        subst hcnil
        simp only [accumulate, if_pos rfl] at hs
        exact ⟨s, hs, rfl, rfl⟩
      · simp only [accumulate, if_neg hempty] at hs
        rcases subtree_cases hs with rfl | ⟨c, hc, hcs2⟩
        · exact ⟨.node d cs, Subtree.refl _, rfl, rfl⟩
        · simp only [LTree.children] at hc
          obtain ⟨r, hr, rfl⟩ := List.mem_map.mp hc
          obtain ⟨c0, hc0, rfl⟩ := List.mem_map.mp hr
          obtain ⟨s0, hs0, hn, ho⟩ := ih c0 s hcs2
          exact ⟨s0, Subtree.step (by simpa [LTree.children] using hc0) hs0, hn, ho⟩

/-- Every node of a tree built below `nd` carries either `nd` itself or a map
entry as its data. -/
theorem buildTree_subtree_data {m : List NodeData} {f : Nat} {nd : NodeData} {s : LTree}
    (h : Subtree (buildTree m f nd) s) : s.data = nd ∨ s.data ∈ m := by
  have hAll : AllData (fun d => d = nd ∨ d ∈ m) (buildTree m f nd) :=
    allData_buildTree (fun x hx => Or.inr hx) f nd (Or.inl rfl)
  exact hAll s h

/-- **C4 (amended).** When the same lineage name appears in more than one
entry, the Hierarchy Builder does not sum the counts: every node of the built
forest has as its own count the count assigned by the entry that first
introduced its name — the entry's count if the name first occurs as an
observation, `0` if the name was first synthesized as an ancestor — and all
later entries for the name are ignored. -/
theorem organize_first_introduction (ls : List LineageObs) (nt : NodeTypes) (t : LTree)
    (ht : t ∈ organizeLineageHierarchy ls nt) (s : LTree) (hs : Subtree t s) :
    introCount ls s.data.name = some s.data.originalCount := by
  obtain ⟨nd, hnd, rfl⟩ := mem_organize ht
  obtain ⟨f2, s0, hs0, rfl⟩ := subtree_sortChildrenT hs
  obtain ⟨s1, hs1, hn, ho⟩ := accumulate_subtree_data _ _ s0 hs0
  have hmem : s1.data ∈ pass1 ls nt := by
    rcases buildTree_subtree_data hs1 with hd | hd
    · rw [hd]; exact hnd
    · exact hd
  rw [sortChildrenT_data, hn, ho]
  exact pass1_introCount hmem

/-- Witness for C4 (amended): in the duplicate-input forest the root "B" has
the first entry's count, `introCount = some 5`. -/
theorem organize_first_introduction_witness :
    introCount [⟨"B".data, 5, none⟩, ⟨"B".data, 3, none⟩]
      (LTree.node { name := "B".data, count := 5, originalCount := 5, sampleCount := 5,
                    internalCount := 0, color := none, isExpanded := false, level := 0,
                    totalTaxa := none } []).data.name =
    some (LTree.node { name := "B".data, count := 5, originalCount := 5, sampleCount := 5,
                       internalCount := 0, color := none, isExpanded := false, level := 0,
                       totalTaxa := none } []).data.originalCount := by
  refine organize_first_introduction [⟨"B".data, 5, none⟩, ⟨"B".data, 3, none⟩] none _
    ?_ _ (Subtree.refl _)
  rw [show organizeLineageHierarchy [⟨"B".data, 5, none⟩, ⟨"B".data, 3, none⟩] none =
    [LTree.node { name := "B".data, count := 5, originalCount := 5, sampleCount := 5,
                  internalCount := 0, color := none, isExpanded := false, level := 0,
                  totalTaxa := none } []] from rfl]
  exact List.mem_singleton.mpr rfl

/-! ## Claim C9: the anti-gray guarantee of the colour assigner

The plan: `hslToRgb` always realises the HSL chroma as the spread between its
largest and smallest channel (up to rounding), a spread of at least 76 makes
`isGrayish` false, and every branch of `generatePangoLineageColor` except the
prevalence-adjusted single-segment branch produces either a table colour
(checked by computation) or an `hslToRgb` colour of chroma far above the
threshold. -/

def max3Z (c : Color) : Int := max c.1 (max c.2.1 c.2.2)
def min3Z (c : Color) : Int := min c.1 (min c.2.1 c.2.2)

/-- A channel spread of at least 76 defeats the `isGrayish` test:
`Σ (3c - S)² = 3[(r-g)² + (g-b)² + (r-b)²] ≥ 3 (max-min)² ≥ 3·76² > 27·625`. -/
theorem isGrayishC_false_of_spread {c : Color} (h : 76 ≤ max3Z c - min3Z c) :
    isGrayishC c = false := by
  obtain ⟨r, g, b⟩ := c
  simp only [isGrayishC, decide_eq_false_iff_not, not_lt]
  have hM : max3Z (r, g, b) = r ∨ max3Z (r, g, b) = g ∨ max3Z (r, g, b) = b := by
    simp only [max3Z]
    omega
  have hm : min3Z (r, g, b) = r ∨ min3Z (r, g, b) = g ∨ min3Z (r, g, b) = b := by
    simp only [min3Z]
    omega
  rcases hM with hM | hM | hM <;> rcases hm with hm | hm | hm <;> rw [hM, hm] at h <;>
    nlinarith [sq_nonneg (r - g), sq_nonneg (g - b), sq_nonneg (r - b),
      mul_le_mul h h (by norm_num : (0:Int) ≤ 76) (by linarith)]

/-- Two rounded values keep at least the real spread minus one. -/
theorem jsRound_diff_ge {x y : Fr} {D : Int} (h : (D : ℚ) + 1 ≤ x.val - y.val) :
    D ≤ x.jsRound - y.jsRound := by
  have hx : x.val - 1/2 < (x.jsRound : ℚ) := Fr.lt_jsRound x
  have hy : (y.jsRound : ℚ) ≤ y.val + 1/2 := Fr.jsRound_le y
  have hq : (D : ℚ) < ((x.jsRound - y.jsRound : Int) : ℚ) := by push_cast; linarith
  have hz : D < x.jsRound - y.jsRound := by exact_mod_cast hq
  omega

/-- The sum of two rounded values differs from the real sum by at most one. -/
theorem jsRound_sum_bounds (x y : Fr) :
    x.val + y.val - 1 < ((x.jsRound + y.jsRound : Int) : ℚ) ∧
    ((x.jsRound + y.jsRound : Int) : ℚ) ≤ x.val + y.val + 1 := by
  have hx1 : x.val - 1/2 < (x.jsRound : ℚ) := Fr.lt_jsRound x
  have hx2 : (x.jsRound : ℚ) ≤ x.val + 1/2 := Fr.jsRound_le x
  have hy1 : y.val - 1/2 < (y.jsRound : ℚ) := Fr.lt_jsRound y
  have hy2 : (y.jsRound : ℚ) ≤ y.val + 1/2 := Fr.jsRound_le y
  constructor <;> push_cast <;> linarith

/-- `hue2rgb` on the central plateau returns `q` exactly. -/
theorem hue2rgb_eq_q {p q t : Fr} (h1 : 1/6 ≤ t.val) (h2 : t.val < 1/2) :
    hue2rgb p q t = q := by
  have hb1 : t.blt (Fr.ofInt 0) = false := by
    rw [Fr.blt_false_iff, Fr.val_ofInt]
    push_cast
    linarith
  have hb2 : (Fr.ofInt 1).blt t = false := by
    rw [Fr.blt_false_iff, Fr.val_ofInt]
    push_cast
    linarith
  have hb3 : t.blt frSixth = false := by
    rw [Fr.blt_false_iff, val_frSixth]
    linarith
  have hb4 : t.blt frHalf = true := by
    rw [Fr.blt_iff, val_frHalf]
    linarith
  simp [hue2rgb, hb1, hb2, hb3, hb4]

/-- `hue2rgb` past the plateau with a `+1`-shifted argument returns `q`. -/
theorem hue2rgb_eq_q_shift {p q t : Fr} (h1 : 1/6 + 1 ≤ t.val) (h2 : t.val < 1/2 + 1) :
    hue2rgb p q t = q := by
  have hb1 : t.blt (Fr.ofInt 0) = false := by
    rw [Fr.blt_false_iff, Fr.val_ofInt]
    push_cast
    linarith
  have hb2 : (Fr.ofInt 1).blt t = true := by
    rw [Fr.blt_iff, Fr.val_ofInt]
    push_cast
    linarith
  have hb3 : (t.sub (Fr.ofInt 1)).blt frSixth = false := by
    rw [Fr.blt_false_iff, val_frSixth, Fr.val_sub, Fr.val_ofInt]
    push_cast
    linarith
  have hb4 : (t.sub (Fr.ofInt 1)).blt frHalf = true := by
    rw [Fr.blt_iff, val_frHalf, Fr.val_sub, Fr.val_ofInt]
    push_cast
    linarith
  simp [hue2rgb, hb1, hb2, hb3, hb4]

/-- `hue2rgb` on the tail returns `p` exactly. -/
theorem hue2rgb_eq_p {p q t : Fr} (h1 : 2/3 ≤ t.val) (h2 : t.val ≤ 1) :
    hue2rgb p q t = p := by
  have hb1 : t.blt (Fr.ofInt 0) = false := by
    rw [Fr.blt_false_iff, Fr.val_ofInt]
    push_cast
    linarith
  have hb2 : (Fr.ofInt 1).blt t = false := by
    rw [Fr.blt_false_iff, Fr.val_ofInt]
    push_cast
    linarith
  have hb3 : t.blt frSixth = false := by
    rw [Fr.blt_false_iff, val_frSixth]
    linarith
  have hb4 : t.blt frHalf = false := by
    rw [Fr.blt_false_iff, val_frHalf]
    linarith
  have hb5 : t.blt frTwoThirds = false := by
    rw [Fr.blt_false_iff, val_frTwoThirds]
    linarith
  simp [hue2rgb, hb1, hb2, hb3, hb4, hb5]

/-- `hue2rgb` on the tail with a `-1`-shifted (negative) argument returns `p`. -/
theorem hue2rgb_eq_p_shift {p q t : Fr} (h1 : 2/3 - 1 ≤ t.val) (h2 : t.val < 0) :
    hue2rgb p q t = p := by
  have hb1 : t.blt (Fr.ofInt 0) = true := by
    rw [Fr.blt_iff, Fr.val_ofInt]
    push_cast
    linarith
  have hb2 : (Fr.ofInt 1).blt (t.add (Fr.ofInt 1)) = false := by
    rw [Fr.blt_false_iff, Fr.val_add, Fr.val_ofInt]
    push_cast
    linarith
  have hb3 : (t.add (Fr.ofInt 1)).blt frSixth = false := by
    rw [Fr.blt_false_iff, val_frSixth, Fr.val_add, Fr.val_ofInt]
    push_cast
    linarith
  have hb4 : (t.add (Fr.ofInt 1)).blt frHalf = false := by
    rw [Fr.blt_false_iff, val_frHalf, Fr.val_add, Fr.val_ofInt]
    push_cast
    linarith
  have hb5 : (t.add (Fr.ofInt 1)).blt frTwoThirds = false := by
    rw [Fr.blt_false_iff, val_frTwoThirds, Fr.val_add, Fr.val_ofInt]
    push_cast
    linarith
  simp [hue2rgb, hb1, hb2, hb3, hb4, hb5]

/-- All channels of `hue2rgb` stay between `p` and `q` (normalised input). -/
theorem hue2rgb_branch_mem {p q u : Fr} (hpq : p.val ≤ q.val)
    (h0 : 0 ≤ u.val) (h1 : u.val ≤ 1)
    (hn : u.blt (Fr.ofInt 0) = false) (hm : (Fr.ofInt 1).blt u = false) :
    p.val ≤ (hue2rgb p q u).val ∧ (hue2rgb p q u).val ≤ q.val := by
  have hqp : 0 ≤ q.val - p.val := by linarith
  by_cases hb3 : u.blt frSixth = true
  · have hu6 : u.val < 1/6 := by
      have := (Fr.blt_iff u frSixth).mp hb3
      rwa [val_frSixth] at this
    rw [show hue2rgb p q u = p.add (((q.sub p).mul (Fr.ofInt 6)).mul u) by
      simp [hue2rgb, hn, hm, hb3]]
    rw [Fr.val_add, Fr.val_mul, Fr.val_mul, Fr.val_sub, Fr.val_ofInt]
    push_cast
    constructor
    · nlinarith [mul_nonneg (mul_nonneg hqp (by norm_num : (0:ℚ) ≤ 6)) h0]
    · nlinarith [mul_nonneg hqp (by linarith : (0:ℚ) ≤ 1 - 6 * u.val)]
  · by_cases hb4 : u.blt frHalf = true
    · rw [show hue2rgb p q u = q by simp [hue2rgb, hn, hm, hb3, hb4]]
      exact ⟨hpq, le_refl _⟩
    · have hu2 : 1/2 ≤ u.val := by
        have := (Fr.blt_false_iff u frHalf).mp (by simpa using hb4)
        rwa [val_frHalf] at this
      by_cases hb5 : u.blt frTwoThirds = true
      · have hu3 : u.val < 2/3 := by
          have := (Fr.blt_iff u frTwoThirds).mp hb5
          rwa [val_frTwoThirds] at this
        rw [show hue2rgb p q u = p.add (((q.sub p).mul (frTwoThirds.sub u)).mul (Fr.ofInt 6)) by
          simp [hue2rgb, hn, hm, hb3, hb4, hb5]]
        rw [Fr.val_add, Fr.val_mul, Fr.val_mul, Fr.val_sub, Fr.val_sub, Fr.val_ofInt,
          val_frTwoThirds]
        push_cast
        constructor
        · nlinarith [mul_nonneg (mul_nonneg hqp (by linarith : (0:ℚ) ≤ 2/3 - u.val))
            (by norm_num : (0:ℚ) ≤ 6)]
        · nlinarith [mul_nonneg hqp (by linarith : (0:ℚ) ≤ 1 - (2/3 - u.val) * 6)]
      · rw [show hue2rgb p q u = p by simp [hue2rgb, hn, hm, hb3, hb4, hb5]]
        exact ⟨le_refl _, hpq⟩

/-- All channels of `hue2rgb` stay between `p` and `q`. -/
theorem hue2rgb_mem {p q t : Fr} (hpq : p.val ≤ q.val)
    (hl : -1 ≤ t.val) (hr : t.val ≤ 2) :
    p.val ≤ (hue2rgb p q t).val ∧ (hue2rgb p q t).val ≤ q.val := by
  by_cases hb1 : t.blt (Fr.ofInt 0) = true
  · have ht : t.val < 0 := by
      have := (Fr.blt_iff t (Fr.ofInt 0)).mp hb1
      rwa [Fr.val_ofInt] at this
    have hadd : (t.add (Fr.ofInt 1)).val = t.val + 1 := by
      rw [Fr.val_add, Fr.val_ofInt]
      push_cast
      ring
    have hn : (t.add (Fr.ofInt 1)).blt (Fr.ofInt 0) = false := by
      rw [Fr.blt_false_iff, Fr.val_ofInt, hadd]
      push_cast
      linarith
    have hm : (Fr.ofInt 1).blt (t.add (Fr.ofInt 1)) = false := by
      rw [Fr.blt_false_iff, Fr.val_ofInt, hadd]
      push_cast
      linarith
    have heq : hue2rgb p q t = hue2rgb p q (t.add (Fr.ofInt 1)) := by
      simp [hue2rgb, hb1, hn, hm]
    rw [heq]
    exact hue2rgb_branch_mem hpq (by rw [hadd]; linarith) (by rw [hadd]; linarith) hn hm
  · have hb1f : t.blt (Fr.ofInt 0) = false := by simpa using hb1
    have ht0 : 0 ≤ t.val := by
      have := (Fr.blt_false_iff t (Fr.ofInt 0)).mp hb1f
      rw [Fr.val_ofInt] at this
      exact_mod_cast this
    by_cases hb2 : (Fr.ofInt 1).blt t = true
    · have ht1 : 1 < t.val := by
        have := (Fr.blt_iff (Fr.ofInt 1) t).mp hb2
        rw [Fr.val_ofInt] at this
        exact_mod_cast this
      have hsub : (t.sub (Fr.ofInt 1)).val = t.val - 1 := by
        rw [Fr.val_sub, Fr.val_ofInt]
        push_cast
        ring
      have hn : (t.sub (Fr.ofInt 1)).blt (Fr.ofInt 0) = false := by
        rw [Fr.blt_false_iff, Fr.val_ofInt, hsub]
        push_cast
        linarith
      have hm : (Fr.ofInt 1).blt (t.sub (Fr.ofInt 1)) = false := by
        rw [Fr.blt_false_iff, Fr.val_ofInt, hsub]
        push_cast
        linarith
      have heq : hue2rgb p q t = hue2rgb p q (t.sub (Fr.ofInt 1)) := by
        simp [hue2rgb, hb1f, hb2, hn, hm]
      rw [heq]
      exact hue2rgb_branch_mem hpq (by rw [hsub]; linarith) (by rw [hsub]; linarith) hn hm
    · have hb2f : (Fr.ofInt 1).blt t = false := by simpa using hb2
      have ht1 : t.val ≤ 1 := by
        have := (Fr.blt_false_iff (Fr.ofInt 1) t).mp hb2f
        rw [Fr.val_ofInt] at this
        exact_mod_cast this
      exact hue2rgb_branch_mem hpq ht0 ht1 hb1f hb2f

/-- The lightness `rgbToHsl` reads back is `(max + min) / 510` of the integer
channels (both branches of the conversion return the same `l`). -/
theorem rgbToHsl_l_val (r g b : Int) :
    (rgbToHsl r g b).2.2.val = ((max3Z (r, g, b) : ℚ) + (min3Z (r, g, b) : ℚ)) / 510 := by
  have h255 : ((Fr.ofInt 255).val : ℚ) ≠ 0 := by
    rw [Fr.val_ofInt]
    norm_num
  have h2 : ((Fr.ofInt 2).val : ℚ) ≠ 0 := by
    rw [Fr.val_ofInt]
    norm_num
  have hrv : ((Fr.ofInt r).div (Fr.ofInt 255)).val = (r : ℚ) / 255 := by
    rw [Fr.val_div _ _ h255, Fr.val_ofInt, Fr.val_ofInt]
    norm_num
  have hgv : ((Fr.ofInt g).div (Fr.ofInt 255)).val = (g : ℚ) / 255 := by
    rw [Fr.val_div _ _ h255, Fr.val_ofInt, Fr.val_ofInt]
    norm_num
  have hbv : ((Fr.ofInt b).div (Fr.ofInt 255)).val = (b : ℚ) / 255 := by
    rw [Fr.val_div _ _ h255, Fr.val_ofInt, Fr.val_ofInt]
    norm_num
  have hl :
      (((((Fr.ofInt r).div (Fr.ofInt 255)).fmax
          (((Fr.ofInt g).div (Fr.ofInt 255)).fmax ((Fr.ofInt b).div (Fr.ofInt 255)))).add
        (((Fr.ofInt r).div (Fr.ofInt 255)).fmin
          (((Fr.ofInt g).div (Fr.ofInt 255)).fmin
            ((Fr.ofInt b).div (Fr.ofInt 255))))).div (Fr.ofInt 2)).val =
      ((max3Z (r, g, b) : ℚ) + (min3Z (r, g, b) : ℚ)) / 510 := by
    rw [Fr.val_div _ _ h2, Fr.val_add, Fr.val_fmax, Fr.val_fmax, Fr.val_fmin, Fr.val_fmin,
      hrv, hgv, hbv, Fr.val_ofInt]
    rw [max_div_div_right (by norm_num : (0:ℚ) ≤ 255),
      max_div_div_right (by norm_num : (0:ℚ) ≤ 255),
      min_div_div_right (by norm_num : (0:ℚ) ≤ 255),
      min_div_div_right (by norm_num : (0:ℚ) ≤ 255),
      div_add_div_same, div_div]
    simp only [max3Z, min3Z]
    push_cast
    norm_num
  unfold rgbToHsl
  simp only []
  split_ifs <;> exact hl

theorem div6_bounds {x : Fr} (h0 : 0 ≤ x.val) (h1 : x.val < 6) :
    0 ≤ (x.div (Fr.ofInt 6)).val ∧ (x.div (Fr.ofInt 6)).val < 1 := by
  have h6ne : ((Fr.ofInt 6).val : ℚ) ≠ 0 := by
    rw [Fr.val_ofInt]
    norm_num
  rw [Fr.val_div _ _ h6ne, Fr.val_ofInt]
  constructor
  · apply div_nonneg h0
    push_cast
    norm_num
  · rw [div_lt_one (by push_cast; norm_num)]
    push_cast
    linarith

/-- The hue `rgbToHsl` produces always lies in `[0, 1)`. -/
theorem rgbToHsl_h_bounds (r g b : Int) :
    0 ≤ (rgbToHsl r g b).1.val ∧ (rgbToHsl r g b).1.val < 1 := by
  set rf := (Fr.ofInt r).div (Fr.ofInt 255) with hrf
  set gf := (Fr.ofInt g).div (Fr.ofInt 255) with hgf
  set bf := (Fr.ofInt b).div (Fr.ofInt 255) with hbf
  set mx := rf.fmax (gf.fmax bf) with hmx
  set mn := rf.fmin (gf.fmin bf) with hmn
  have hmxv : mx.val = max rf.val (max gf.val bf.val) := by
    rw [hmx, Fr.val_fmax, Fr.val_fmax]
  have hmnv : mn.val = min rf.val (min gf.val bf.val) := by
    rw [hmn, Fr.val_fmin, Fr.val_fmin]
  have hrle : rf.val ≤ mx.val := by rw [hmxv]; exact le_max_left _ _
  have hgle : gf.val ≤ mx.val := by rw [hmxv]; exact le_trans (le_max_left _ _) (le_max_right _ _)
  have hble : bf.val ≤ mx.val := by rw [hmxv]; exact le_trans (le_max_right _ _) (le_max_right _ _)
  have hrge : mn.val ≤ rf.val := by rw [hmnv]; exact min_le_left _ _
  have hgge : mn.val ≤ gf.val := by rw [hmnv]; exact le_trans (min_le_right _ _) (min_le_left _ _)
  have hbge : mn.val ≤ bf.val := by rw [hmnv]; exact le_trans (min_le_right _ _) (min_le_right _ _)
  unfold rgbToHsl
  simp only []
  rw [← hrf, ← hgf, ← hbf, ← hmx, ← hmn]
  by_cases hbeq : mx.beq mn = true
  · rw [if_pos hbeq]
    simp [Fr.val_ofInt]
  · rw [if_neg hbeq]
    have hne : mx.val ≠ mn.val := (Fr.beq_false_iff mx mn).mp (by simpa using hbeq)
    have hmnx : mn.val ≤ mx.val := le_trans hrge hrle
    have hdpos : 0 < mx.val - mn.val := by
      rcases lt_or_eq_of_le hmnx with hlt | heq
      · linarith
      · exact absurd heq.symm hne
    have hdval : (mx.sub mn).val = mx.val - mn.val := Fr.val_sub mx mn
    have hdne2 : (mx.sub mn).val ≠ 0 := by
      rw [hdval]
      linarith
    have hratio : ∀ x y : Fr, mn.val ≤ x.val → x.val ≤ mx.val → mn.val ≤ y.val →
        y.val ≤ mx.val →
        -1 ≤ ((x.sub y).div (mx.sub mn)).val ∧ ((x.sub y).div (mx.sub mn)).val ≤ 1 := by
      intro x y h1 h2 h3 h4
      rw [Fr.val_div _ _ hdne2, Fr.val_sub, hdval]
      constructor
      · rw [le_div_iff₀ hdpos]
        linarith
      · rw [div_le_one hdpos]
        linarith
    simp only
    refine div6_bounds ?_ ?_ <;> split_ifs with hc1 hc2 hc3
    · -- r is max, g < b: (g-b)/d + 6 ≥ 5
      have hr := hratio gf bf hgge hgle hbge hble
      rw [Fr.val_add, Fr.val_ofInt]
      push_cast
      linarith [hr.1]
    · -- r is max, g ≥ b: (g-b)/d + 0 ≥ 0
      have hq : 0 ≤ ((gf.sub bf).div (mx.sub mn)).val := by
        rw [Fr.val_div _ _ hdne2, Fr.val_sub, hdval]
        have hgb : bf.val ≤ gf.val := by
          have := (Fr.blt_false_iff gf bf).mp (by simpa using hc2)
          linarith
        exact div_nonneg (by linarith) (le_of_lt hdpos)
      rw [Fr.val_add, Fr.val_ofInt]
      push_cast
      linarith
    · -- g is max: (b-r)/d + 2 ≥ 1
      have hr := hratio bf rf hbge hble hrge hrle
      rw [Fr.val_add, Fr.val_ofInt]
      push_cast
      linarith [hr.1]
    · -- b is max: (r-g)/d + 4 ≥ 3
      have hr := hratio rf gf hrge hrle hgge hgle
      rw [Fr.val_add, Fr.val_ofInt]
      push_cast
      linarith [hr.1]
    · -- r is max, g < b: (g-b)/d + 6 < 6
      have hglt : gf.val < bf.val := by
        have := (Fr.blt_iff gf bf).mp hc2
        exact this
      have hq : ((gf.sub bf).div (mx.sub mn)).val < 0 := by
        rw [Fr.val_div _ _ hdne2, Fr.val_sub, hdval]
        exact div_neg_of_neg_of_pos (by linarith) hdpos
      rw [Fr.val_add, Fr.val_ofInt]
      push_cast
      linarith
    · -- r is max, g ≥ b: ratio + 0 ≤ 1 < 6
      have hr := hratio gf bf hgge hgle hbge hble
      rw [Fr.val_add, Fr.val_ofInt]
      push_cast
      linarith [hr.2]
    · -- g is max: ratio + 2 ≤ 3 < 6
      have hr := hratio bf rf hbge hble hrge hrle
      rw [Fr.val_add, Fr.val_ofInt]
      push_cast
      linarith [hr.2]
    · -- b is max: ratio + 4 ≤ 5 < 6
      have hr := hratio rf gf hrge hrle hgge hgle
      rw [Fr.val_add, Fr.val_ofInt]
      push_cast
      linarith [hr.2]

/-- Rounding is monotone. -/
theorem jsRound_mono {x y : Fr} (h : x.val ≤ y.val) : x.jsRound ≤ y.jsRound := by
  rw [Fr.jsRound_eq, Fr.jsRound_eq]
  exact Int.floor_le_floor (by linarith)

/-- JS `x % 1` lies strictly between `-1` and `1`. -/
theorem jsModOne_bounds (x : Fr) : -1 < x.jsModOne.val ∧ x.jsModOne.val < 1 := by
  unfold Fr.jsModOne
  simp only []
  by_cases hb : (Fr.ofInt 0).ble x = true
  · have hx : 0 ≤ x.val := by
      have := (Fr.ble_iff (Fr.ofInt 0) x).mp hb
      rwa [Fr.val_ofInt] at this
    rw [if_pos hb]
    have hdv : x.num / x.den = ⌊x.val⌋ := by
      rw [Fr.ediv_eq_floor _ _ x.dpos]
      rfl
    rw [Fr.val_sub, Fr.val_ofInt, hdv]
    have h1 : (⌊x.val⌋ : ℚ) ≤ x.val := Int.floor_le _
    have h2 : x.val < ⌊x.val⌋ + 1 := Int.lt_floor_add_one _
    constructor <;> push_cast <;> linarith
  · rw [if_neg hb]
    have hdv2 : (-x.num) / x.den = ⌊-x.val⌋ := by
      rw [Fr.ediv_eq_floor _ _ x.dpos]
      unfold Fr.val
      congr 1
      push_cast
      ring
    rw [Fr.val_sub, Fr.val_ofInt, hdv2]
    have h1 : (⌊-x.val⌋ : ℚ) ≤ -x.val := Int.floor_le _
    have h2 : -x.val < ⌊-x.val⌋ + 1 := Int.lt_floor_add_one _
    constructor <;> push_cast <;> linarith

/-- For a hue in `[0, 1)`, the three rounded channels of the `hslToRgb`
conversion have maximum exactly `round(255 q)` and minimum exactly
`round(255 p)`: one channel sits on each extreme and the third lies between
them. -/
theorem hslChannels_maxmin {p q h : Fr} (hpq : p.val ≤ q.val)
    (hh0 : 0 ≤ h.val) (hh1 : h.val < 1) :
    max3Z (hslChannels p q h) = (q.mul (Fr.ofInt 255)).jsRound ∧
    min3Z (hslChannels p q h) = (p.mul (Fr.ofInt 255)).jsRound := by
  have haddv : (h.add frThird).val = h.val + 1/3 := by rw [Fr.val_add, val_frThird]
  have hsubv : (h.sub frThird).val = h.val - 1/3 := by rw [Fr.val_sub, val_frThird]
  have hroundmem : ∀ c : Fr, p.val ≤ c.val → c.val ≤ q.val →
      (p.mul (Fr.ofInt 255)).jsRound ≤ (c.mul (Fr.ofInt 255)).jsRound ∧
      (c.mul (Fr.ofInt 255)).jsRound ≤ (q.mul (Fr.ofInt 255)).jsRound := by
    intro c h1 h2
    constructor <;> apply jsRound_mono <;>
      rw [Fr.val_mul, Fr.val_mul, Fr.val_ofInt] <;> push_cast <;> nlinarith
  have hmemR := @hue2rgb_mem p q (h.add frThird) hpq
    (by rw [haddv]; linarith) (by rw [haddv]; linarith)
  have hmemG := @hue2rgb_mem p q h hpq (by linarith) (by linarith)
  have hmemB := @hue2rgb_mem p q (h.sub frThird) hpq
    (by rw [hsubv]; linarith) (by rw [hsubv]; linarith)
  have hR := hroundmem _ hmemR.1 hmemR.2
  have hG := hroundmem _ hmemG.1 hmemG.2
  have hB := hroundmem _ hmemB.1 hmemB.2
  simp only [hslChannels, max3Z, min3Z]
  by_cases h16 : h.val < 1/6
  · -- R channel is q, B channel is p
    have hq' : hue2rgb p q (h.add frThird) = q :=
      @hue2rgb_eq_q p q _ (by rw [haddv]; linarith) (by rw [haddv]; linarith)
    have hp' : hue2rgb p q (h.sub frThird) = p :=
      @hue2rgb_eq_p_shift p q _ (by rw [hsubv]; linarith) (by rw [hsubv]; linarith)
    rw [hq', hp']
    constructor <;> omega
  · by_cases h13 : h.val < 1/3
    · -- G is q, B is p
      have hq' : hue2rgb p q h = q := @hue2rgb_eq_q p q h (by linarith) (by linarith)
      have hp' : hue2rgb p q (h.sub frThird) = p :=
        @hue2rgb_eq_p_shift p q _ (by rw [hsubv]; linarith) (by rw [hsubv]; linarith)
      rw [hq', hp']
      rw [hq'] at hG
      constructor <;> omega
    · by_cases h12 : h.val < 1/2
      · -- G is q, R is p
        have hq' : hue2rgb p q h = q := @hue2rgb_eq_q p q h (by linarith) (by linarith)
        have hp' : hue2rgb p q (h.add frThird) = p :=
          @hue2rgb_eq_p p q _ (by rw [haddv]; linarith) (by rw [haddv]; linarith)
        rw [hq', hp']
        rw [hp'] at hR
        constructor <;> omega
      · by_cases h23 : h.val < 2/3
        · -- B is q, R is p
          have hq' : hue2rgb p q (h.sub frThird) = q :=
            @hue2rgb_eq_q p q _ (by rw [hsubv]; linarith) (by rw [hsubv]; linarith)
          have hp' : hue2rgb p q (h.add frThird) = p :=
            @hue2rgb_eq_p p q _ (by rw [haddv]; linarith) (by rw [haddv]; linarith)
          rw [hq', hp']
          rw [hq'] at hB
          rw [hp'] at hR
          constructor <;> omega
        · by_cases h56 : h.val < 5/6
          · -- B is q, G is p
            have hq' : hue2rgb p q (h.sub frThird) = q :=
              @hue2rgb_eq_q p q _ (by rw [hsubv]; linarith) (by rw [hsubv]; linarith)
            have hp' : hue2rgb p q h = p := @hue2rgb_eq_p p q h (by linarith) (by linarith)
            rw [hq', hp']
            rw [hq'] at hB
            rw [hp'] at hG
            constructor <;> omega
          · -- R is q (shifted), G is p
            have hq' : hue2rgb p q (h.add frThird) = q :=
              @hue2rgb_eq_q_shift p q _ (by rw [haddv]; linarith) (by rw [haddv]; linarith)
            have hp' : hue2rgb p q h = p := @hue2rgb_eq_p p q h (by linarith) (by linarith)
            rw [hq', hp']
            rw [hq'] at hR
            rw [hp'] at hG
            constructor <;> omega

/-- For `s > 0` and `l ∈ [0,1]`, the channel spread of `hslToRgb` is within
one of `255 · 2 s · min(l, 1-l)` (from below) and the channel max+min is
within one of `510 l`. -/
theorem hslToRgb_maxmin {h s l : Fr} (hh0 : 0 ≤ h.val) (hh1 : h.val < 1)
    (hs0 : 0 < s.val) (hl0 : 0 ≤ l.val) (hl1 : l.val ≤ 1) :
    255 * (2 * s.val * min l.val (1 - l.val)) - 1 <
        ((max3Z (hslToRgb h s l) - min3Z (hslToRgb h s l) : Int) : ℚ) ∧
    510 * l.val - 1 < ((max3Z (hslToRgb h s l) + min3Z (hslToRgb h s l) : Int) : ℚ) ∧
    ((max3Z (hslToRgb h s l) + min3Z (hslToRgb h s l) : Int) : ℚ) ≤ 510 * l.val + 1 := by
  have hsbeq : ¬ (s.beq (Fr.ofInt 0) = true) := by
    rw [Bool.not_eq_true, Fr.beq_false_iff, Fr.val_ofInt]
    push_cast
    linarith
  unfold hslToRgb
  rw [if_neg hsbeq]
  simp only []
  by_cases hlb : l.blt frHalf = true
  · have hl2 : l.val < 1/2 := by
      have := (Fr.blt_iff l frHalf).mp hlb
      rwa [val_frHalf] at this
    rw [if_pos hlb]
    have hQv : (l.mul ((Fr.ofInt 1).add s)).val = l.val * (1 + s.val) := by
      rw [Fr.val_mul, Fr.val_add, Fr.val_ofInt]
      push_cast
      ring
    have hPv : (((Fr.ofInt 2).mul l).sub (l.mul ((Fr.ofInt 1).add s))).val =
        2 * l.val - l.val * (1 + s.val) := by
      rw [Fr.val_sub, Fr.val_mul, Fr.val_ofInt, hQv]
      push_cast
      ring
    have hpq : (((Fr.ofInt 2).mul l).sub (l.mul ((Fr.ofInt 1).add s))).val ≤
        (l.mul ((Fr.ofInt 1).add s)).val := by
      rw [hQv, hPv]
      nlinarith
    obtain ⟨hM, hm⟩ := hslChannels_maxmin hpq hh0 hh1
    rw [hM, hm]
    have hQ255 : ((l.mul ((Fr.ofInt 1).add s)).mul (Fr.ofInt 255)).val =
        (l.val * (1 + s.val)) * 255 := by
      rw [Fr.val_mul, hQv, Fr.val_ofInt]
      push_cast
      ring
    have hP255 : ((((Fr.ofInt 2).mul l).sub (l.mul ((Fr.ofInt 1).add s))).mul
        (Fr.ofInt 255)).val = (2 * l.val - l.val * (1 + s.val)) * 255 := by
      rw [Fr.val_mul, hPv, Fr.val_ofInt]
      push_cast
      ring
    have hQ1 := Fr.lt_jsRound ((l.mul ((Fr.ofInt 1).add s)).mul (Fr.ofInt 255))
    have hQ2 := Fr.jsRound_le ((l.mul ((Fr.ofInt 1).add s)).mul (Fr.ofInt 255))
    have hP1 := Fr.lt_jsRound ((((Fr.ofInt 2).mul l).sub
      (l.mul ((Fr.ofInt 1).add s))).mul (Fr.ofInt 255))
    have hP2 := Fr.jsRound_le ((((Fr.ofInt 2).mul l).sub
      (l.mul ((Fr.ofInt 1).add s))).mul (Fr.ofInt 255))
    rw [hQ255] at hQ1 hQ2
    rw [hP255] at hP1 hP2
    rw [min_eq_left (by linarith)]
    refine ⟨?_, ?_, ?_⟩ <;> push_cast <;> nlinarith
  · have hl2 : 1/2 ≤ l.val := by
      have := (Fr.blt_false_iff l frHalf).mp (by simpa using hlb)
      rwa [val_frHalf] at this
    rw [if_neg hlb]
    have hQv : ((l.add s).sub (l.mul s)).val = l.val + s.val - l.val * s.val := by
      rw [Fr.val_sub, Fr.val_add, Fr.val_mul]
    have hPv : (((Fr.ofInt 2).mul l).sub ((l.add s).sub (l.mul s))).val =
        2 * l.val - (l.val + s.val - l.val * s.val) := by
      rw [Fr.val_sub, Fr.val_mul, Fr.val_ofInt, hQv]
      push_cast
      ring
    have hpq : (((Fr.ofInt 2).mul l).sub ((l.add s).sub (l.mul s))).val ≤
        ((l.add s).sub (l.mul s)).val := by
      rw [hQv, hPv]
      nlinarith
    obtain ⟨hM, hm⟩ := hslChannels_maxmin hpq hh0 hh1
    rw [hM, hm]
    have hQ255 : (((l.add s).sub (l.mul s)).mul (Fr.ofInt 255)).val =
        (l.val + s.val - l.val * s.val) * 255 := by
      rw [Fr.val_mul, hQv, Fr.val_ofInt]
      push_cast
      ring
    have hP255 : ((((Fr.ofInt 2).mul l).sub ((l.add s).sub (l.mul s))).mul
        (Fr.ofInt 255)).val = (2 * l.val - (l.val + s.val - l.val * s.val)) * 255 := by
      rw [Fr.val_mul, hPv, Fr.val_ofInt]
      push_cast
      ring
    have hQ1 := Fr.lt_jsRound (((l.add s).sub (l.mul s)).mul (Fr.ofInt 255))
    have hQ2 := Fr.jsRound_le (((l.add s).sub (l.mul s)).mul (Fr.ofInt 255))
    have hP1 := Fr.lt_jsRound ((((Fr.ofInt 2).mul l).sub
      ((l.add s).sub (l.mul s))).mul (Fr.ofInt 255))
    have hP2 := Fr.jsRound_le ((((Fr.ofInt 2).mul l).sub
      ((l.add s).sub (l.mul s))).mul (Fr.ofInt 255))
    rw [hQ255] at hQ1 hQ2
    rw [hP255] at hP1 hP2
    rw [min_eq_right (by linarith)]
    refine ⟨?_, ?_, ?_⟩ <;> push_cast <;> nlinarith

/-- The character-weighted hash is nonnegative. -/
theorem charWeightSeed_nonneg (l : Name) : 0 ≤ charWeightSeed l := by
  unfold charWeightSeed
  have key : ∀ (ps : List (Nat × Char)) (a : Int), 0 ≤ a →
      0 ≤ ps.foldl (fun acc ic => acc + (ic.2.toNat : Int) * ((ic.1 : Int) + 1) * 37) a := by
    intro ps
    induction ps with
    | nil => intro a ha; simpa
    | cons p ps ih =>
      intro a ha
      refine ih _ ?_
      have hp : (0:Int) ≤ (p.2.toNat : Int) * ((p.1 : Int) + 1) * 37 := by positivity
      simp only [List.foldl]
      linarith
  exact key _ 0 le_rfl

/-- A base colour is "good" when its channel max+min lands in `[110, 400]`
(so the root fallback's saturation boost stays non-gray) and, whenever its
measured saturation is at least `0.5` (so the fallback returns it unchanged),
it is itself non-gray. -/
def goodBaseB (c : Color) : Bool :=
  decide (110 ≤ max3Z c + min3Z c) && decide (max3Z c + min3Z c ≤ 400) &&
  ((rgbToHsl c.1 c.2.1 c.2.2).2.1.blt frHalf || !(isGrayishC c))

theorem goodBaseB_spec {c : Color} (h : goodBaseB c = true) :
    110 ≤ max3Z c + min3Z c ∧ max3Z c + min3Z c ≤ 400 ∧
    ((rgbToHsl c.1 c.2.1 c.2.2).2.1.blt frHalf = true ∨ isGrayishC c = false) := by
  unfold goodBaseB at h
  simp only [Bool.and_eq_true, Bool.or_eq_true, Bool.not_eq_true',
    decide_eq_true_eq] at h
  exact ⟨h.1.1, h.1.2, h.2⟩

/-- Every colour in the base-colour table is good. -/
theorem table_good : baseColorsList.all (fun e => goodBaseB e.2) = true := by decide

/-- A successful table lookup returns a good colour. -/
theorem lookup_good {k : Name} {c : Color} (h : lookupBaseColor k = some c) :
    goodBaseB c = true := by
  unfold lookupBaseColor at h
  obtain ⟨e, he, hec⟩ := Option.map_eq_some'.mp h
  have hmem : e ∈ baseColorsList.reverse := List.mem_of_find?_eq_some he
  have hmem2 : e ∈ baseColorsList := List.mem_reverse.mp hmem
  have := List.all_eq_true.mp table_good e hmem2
  rwa [hec] at this

/-- The seed-hash colour is never gray. -/
theorem seedColor_spread (seed : Int) (hs : 0 ≤ seed) :
    177 < max3Z (seedColor seed) - min3Z (seedColor seed) ∧
    254 < max3Z (seedColor seed) + min3Z (seedColor seed) ∧
    max3Z (seedColor seed) + min3Z (seedColor seed) ≤ 256 := by
  have h360 : 0 ≤ seed.tmod 360 ∧ seed.tmod 360 < 360 := by
    rw [Int.tmod_eq_emod hs (by norm_num)]
    exact ⟨Int.emod_nonneg seed (by norm_num), Int.emod_lt_of_pos seed (by norm_num)⟩
  have h20 : 0 ≤ seed.tmod 20 ∧ seed.tmod 20 < 20 := by
    rw [Int.tmod_eq_emod hs (by norm_num)]
    exact ⟨Int.emod_nonneg seed (by norm_num), Int.emod_lt_of_pos seed (by norm_num)⟩
  have h360q : (0:ℚ) ≤ (seed.tmod 360 : ℚ) ∧ (seed.tmod 360 : ℚ) < 360 :=
    ⟨by exact_mod_cast h360.1, by exact_mod_cast h360.2⟩
  have h20q : (0:ℚ) ≤ (seed.tmod 20 : ℚ) ∧ (seed.tmod 20 : ℚ) < 20 :=
    ⟨by exact_mod_cast h20.1, by exact_mod_cast h20.2⟩
  have hhv : ((Fr.ofInt (seed.tmod 360)).div (Fr.ofInt 360)).val =
      (seed.tmod 360 : ℚ) / 360 := by
    rw [Fr.val_div _ _ (by rw [Fr.val_ofInt]; norm_num), Fr.val_ofInt, Fr.val_ofInt]
    norm_num
  have hsv : ((pm 70).add ((Fr.ofInt (seed.tmod 20)).div (Fr.ofInt 100))).val =
      7/10 + (seed.tmod 20 : ℚ) / 100 := by
    rw [Fr.val_add, val_pm, Fr.val_div _ _ (by rw [Fr.val_ofInt]; norm_num),
      Fr.val_ofInt, Fr.val_ofInt]
    norm_num
  have hh0 : 0 ≤ ((Fr.ofInt (seed.tmod 360)).div (Fr.ofInt 360)).val := by
    rw [hhv]
    exact div_nonneg h360q.1 (by norm_num)
  have hh1 : ((Fr.ofInt (seed.tmod 360)).div (Fr.ofInt 360)).val < 1 := by
    rw [hhv, div_lt_one (by norm_num)]
    exact h360q.2
  have hs0 : 0 < ((pm 70).add ((Fr.ofInt (seed.tmod 20)).div (Fr.ofInt 100))).val := by
    rw [hsv]
    have := h20q.1
    linarith
  have hl0 : (0:ℚ) ≤ frHalf.val := by rw [val_frHalf]; norm_num
  have hl1 : frHalf.val ≤ 1 := by rw [val_frHalf]; norm_num
  obtain ⟨hd, hs1, hs2⟩ := hslToRgb_maxmin hh0 hh1 hs0 hl0 hl1
  rw [val_frHalf] at hd hs1 hs2
  rw [show (1:ℚ)/2 ⊓ (1 - 1/2) = 1/2 from by norm_num] at hd
  rw [hsv] at hd
  have hdq : (177:ℚ) <
      ((max3Z (seedColor seed) - min3Z (seedColor seed) : Int) : ℚ) := by
    unfold seedColor
    simp only []
    have h178 : (178:ℚ) ≤ 255 * (2 * (7/10 + (seed.tmod 20 : ℚ) / 100) * (1/2)) := by
      have := h20q.1
      nlinarith
    calc (177:ℚ) ≤ 255 * (2 * (7/10 + (seed.tmod 20 : ℚ) / 100) * (1/2)) - 1 := by
          linarith
    _ < _ := hd
  have hsum1 : (254:ℚ) <
      ((max3Z (seedColor seed) + min3Z (seedColor seed) : Int) : ℚ) := by
    unfold seedColor
    simp only []
    calc (254:ℚ) = 510 * (1/2) - 1 := by norm_num
    _ < _ := hs1
  have hsum2 : ((max3Z (seedColor seed) + min3Z (seedColor seed) : Int) : ℚ) ≤ 256 := by
    unfold seedColor
    simp only []
    calc _ ≤ 510 * (1/2:ℚ) + 1 := hs2
    _ = 256 := by norm_num
  exact ⟨by exact_mod_cast hdq, by exact_mod_cast hsum1, by exact_mod_cast hsum2⟩

theorem seedColor_notGray (seed : Int) (hs : 0 ≤ seed) :
    isGrayishC (seedColor seed) = false := by
  apply isGrayishC_false_of_spread
  have := (seedColor_spread seed hs).1
  omega

theorem seedColor_good (seed : Int) (hs : 0 ≤ seed) :
    goodBaseB (seedColor seed) = true := by
  obtain ⟨hd, h1, h2⟩ := seedColor_spread seed hs
  unfold goodBaseB
  simp [seedColor_notGray seed hs]
  omega

/-- `hslToRgb` with saturation in `[0.6, 0.9]` and lightness in `[0.35, 0.55]`
is never gray and lands in the good max+min window. -/
theorem hslToRgb_good {h s l : Fr} (hh0 : 0 ≤ h.val) (hh1 : h.val < 1)
    (hs06 : 3/5 ≤ s.val) (hs09 : s.val ≤ 9/10)
    (hl35 : 7/20 ≤ l.val) (hl55 : l.val ≤ 11/20) :
    isGrayishC (hslToRgb h s l) = false ∧ goodBaseB (hslToRgb h s l) = true := by
  obtain ⟨hd, h1, h2⟩ :=
    @hslToRgb_maxmin h s l hh0 hh1 (by linarith) (by linarith) (by linarith)
  have hmin : 7/20 ≤ min l.val (1 - l.val) := le_min hl35 (by linarith)
  have hdq : (106:ℚ) <
      ((max3Z (hslToRgb h s l) - min3Z (hslToRgb h s l) : Int) : ℚ) := by
    have hc : (107:ℚ) ≤ 255 * (2 * s.val * min l.val (1 - l.val)) := by nlinarith
    linarith
  have hdz : (106:Int) < max3Z (hslToRgb h s l) - min3Z (hslToRgb h s l) := by
    exact_mod_cast hdq
  have hg : isGrayishC (hslToRgb h s l) = false := isGrayishC_false_of_spread (by omega)
  have hsum1 : (177:ℚ) <
      ((max3Z (hslToRgb h s l) + min3Z (hslToRgb h s l) : Int) : ℚ) := by linarith
  have hsum2 : ((max3Z (hslToRgb h s l) + min3Z (hslToRgb h s l) : Int) : ℚ) < 282 := by
    linarith
  have hz1 : (177:Int) < max3Z (hslToRgb h s l) + min3Z (hslToRgb h s l) := by
    exact_mod_cast hsum1
  have hz2 : max3Z (hslToRgb h s l) + min3Z (hslToRgb h s l) < (282:Int) := by
    exact_mod_cast hsum2
  refine ⟨hg, ?_⟩
  unfold goodBaseB
  simp [hg]
  omega

/-- The derived-hue wrap `h2 < 0 ? h2 + 1 : h2` of a `jsModOne` result lies in
`[0, 1)`. -/
theorem wrapHue_bounds (x : Fr) :
    0 ≤ (if x.jsModOne.blt (Fr.ofInt 0) then x.jsModOne.add (Fr.ofInt 1)
         else x.jsModOne).val ∧
    (if x.jsModOne.blt (Fr.ofInt 0) then x.jsModOne.add (Fr.ofInt 1)
     else x.jsModOne).val < 1 := by
  obtain ⟨hlo, hhi⟩ := jsModOne_bounds x
  by_cases hb : x.jsModOne.blt (Fr.ofInt 0) = true
  · rw [if_pos hb]
    have hneg : x.jsModOne.val < 0 := by
      have := (Fr.blt_iff _ _).mp hb
      rwa [Fr.val_ofInt] at this
    rw [Fr.val_add, Fr.val_ofInt]
    push_cast
    constructor <;> linarith
  · rw [if_neg hb]
    have hpos : 0 ≤ x.jsModOne.val := by
      have := (Fr.blt_false_iff _ _).mp (by simpa using hb)
      rwa [Fr.val_ofInt] at this
    exact ⟨hpos, by linarith⟩

/-- The saturation clamp `max(0.6, min(0.9, x))` lies in `[0.6, 0.9]`. -/
theorem clampS_bounds (x : Fr) :
    3/5 ≤ ((pm 60).fmax ((pm 90).fmin x)).val ∧
    ((pm 60).fmax ((pm 90).fmin x)).val ≤ 9/10 := by
  rw [Fr.val_fmax, Fr.val_fmin, val_pm, val_pm]
  have h60 : ((60:Int):ℚ)/100 = 3/5 := by norm_num
  have h90 : ((90:Int):ℚ)/100 = 9/10 := by norm_num
  rw [h60, h90]
  exact ⟨le_max_left _ _, max_le (by norm_num) (min_le_left _ _)⟩

/-- The lightness clamp `max(0.35, min(0.55, x))` lies in `[0.35, 0.55]`. -/
theorem clampL_bounds (x : Fr) :
    7/20 ≤ ((pm 35).fmax ((pm 55).fmin x)).val ∧
    ((pm 35).fmax ((pm 55).fmin x)).val ≤ 11/20 := by
  rw [Fr.val_fmax, Fr.val_fmin, val_pm, val_pm]
  have h35 : ((35:Int):ℚ)/100 = 7/20 := by norm_num
  have h55 : ((55:Int):ℚ)/100 = 11/20 := by norm_num
  rw [h35, h55]
  exact ⟨le_max_left _ _, max_le (by norm_num) (min_le_left _ _)⟩

/-- The hash colour of an unknown lineage is good. -/
theorem unknown_good (l : Name) :
    goodBaseB (generateColorForUnknownLineage l) = true := by
  unfold generateColorForUnknownLineage
  exact seedColor_good _ (charWeightSeed_nonneg l)

/-- The hash colour of an unknown lineage is never gray. -/
theorem unknown_notGray (l : Name) :
    isGrayishC (generateColorForUnknownLineage l) = false := by
  unfold generateColorForUnknownLineage
  exact seedColor_notGray _ (charWeightSeed_nonneg l)

/-- A derived multi-letter root colour is good. -/
theorem derived_good (pc : Color) (root : Name) :
    goodBaseB (derivedRootColor pc root) = true := by
  unfold derivedRootColor
  simp only []
  refine (hslToRgb_good ?_ ?_ ?_ ?_ ?_ ?_).2
  · exact (wrapHue_bounds _).1
  · exact (wrapHue_bounds _).2
  · exact (clampS_bounds _).1
  · exact (clampS_bounds _).2
  · exact (clampL_bounds _).1
  · exact (clampL_bounds _).2

/-- Every base colour `basePangoColor` can produce is good. -/
theorem basePango_good (root : Name) : goodBaseB (basePangoColor root) = true := by
  unfold basePangoColor
  split
  · next c hc => exact lookup_good hc
  · next hc =>
    split
    · next hba => decide
    · next hba =>
      split
      · next hlen =>
        split
        · next pc hc2 => exact derived_good pc root
        · next hc2 => exact unknown_good root
      · next hlen => exact unknown_good root

/-- The root-level fallback of a good base colour is never gray: either the
colour is kept (and is non-gray by goodness) or it is re-saturated at
`s = 0.7` around its measured lightness, whose `max+min ∈ [110, 400]` window
guarantees a channel spread of at least `77`. -/
theorem rootFall_notGray {c : Color} (h : goodBaseB c = true) :
    isGrayishC (rootFall c) = false := by
  obtain ⟨r, g, b⟩ := c
  obtain ⟨h1, h2, h3⟩ := goodBaseB_spec h
  unfold rootFall
  simp only []
  by_cases hb : (rgbToHsl r g b).2.1.blt frHalf = true
  · rw [if_pos hb]
    obtain ⟨hh0, hh1⟩ := rgbToHsl_h_bounds r g b
    have hlv := rgbToHsl_l_val r g b
    have hsumlo : (110:ℚ) ≤ (max3Z (r, g, b) : ℚ) + (min3Z (r, g, b) : ℚ) := by
      push_cast
      exact_mod_cast h1
    have hsumhi : (max3Z (r, g, b) : ℚ) + (min3Z (r, g, b) : ℚ) ≤ 400 := by
      push_cast
      exact_mod_cast h2
    have hl0q : 0 ≤ (rgbToHsl r g b).2.2.val := by
      rw [hlv]
      exact div_nonneg (by linarith) (by norm_num)
    have hl1q : (rgbToHsl r g b).2.2.val ≤ 1 := by
      rw [hlv, div_le_one (by norm_num)]
      linarith
    have hs0 : 0 < (pm 70).val := by
      rw [val_pm]
      norm_num
    obtain ⟨hd, hs1, hs2⟩ :=
      @hslToRgb_maxmin (rgbToHsl r g b).1 (pm 70) ((rgbToHsl r g b).2.2) hh0 hh1 hs0 hl0q hl1q
    have hlx : (rgbToHsl r g b).2.2.val ≤ 40/51 := by
      rw [hlv, div_le_iff₀ (by norm_num : (0:ℚ) < 510)]
      linarith
    have hly : 11/51 ≤ (rgbToHsl r g b).2.2.val := by
      rw [hlv, le_div_iff₀ (by norm_num : (0:ℚ) < 510)]
      linarith
    have hmin : 11/51 ≤ min ((rgbToHsl r g b).2.2.val) (1 - (rgbToHsl r g b).2.2.val) :=
      le_min hly (by linarith)
    have h77 : (77:ℚ) ≤ 255 * (2 * (pm 70).val *
        min ((rgbToHsl r g b).2.2.val) (1 - (rgbToHsl r g b).2.2.val)) := by
      rw [val_pm]
      push_cast
      linarith
    apply isGrayishC_false_of_spread
    have hq : (76:ℚ) <
        ((max3Z (hslToRgb (rgbToHsl r g b).1 (pm 70) ((rgbToHsl r g b).2.2)) -
          min3Z (hslToRgb (rgbToHsl r g b).1 (pm 70) ((rgbToHsl r g b).2.2)) : Int) : ℚ) := by
      linarith
    have hz : (76:Int) <
        max3Z (hslToRgb (rgbToHsl r g b).1 (pm 70) ((rgbToHsl r g b).2.2)) -
          min3Z (hslToRgb (rgbToHsl r g b).1 (pm 70) ((rgbToHsl r g b).2.2)) := by
      exact_mod_cast hq
    omega
  · rw [if_neg hb]
    rcases h3 with h3 | h3
    · exact absurd h3 hb
    · exact h3

/-- The deep-branch anti-gray guard always returns a non-gray colour. -/
theorem grayGuard_notGray (l : Name) (c : Color) :
    isGrayishC (grayGuard l c) = false := by
  unfold grayGuard
  by_cases hg : isGrayishC c = true
  · rw [if_pos hg]
    exact seedColor_notGray _ (charWeightSeed_nonneg l)
  · rw [if_neg hg]
    simpa using hg

/-- **C9** (corrected): for every non-empty lineage name, on every branch of
`generatePangoLineageColor` *except* the single-segment (root-level)
prevalence-adjusted branch — which applies `hslToRgb` with a
prevalence-darkened lightness and no anti-gray check — the returned RGB
triple fails the code's `isGrayish` test (channel standard deviation at
least the threshold `25`). -/
theorem generate_not_gray (l : Name) (dat : Option LData) (hne : l ≠ [])
    (hbr : rootPrevalenceAdjusted l dat = false) :
    isGrayishC (generatePangoLineageColor l dat) = false := by
  unfold generatePangoLineageColor
  rw [if_neg hne]
  by_cases he : (!(l.contains '.') && !(allLettersTest l)) = true
  · rw [if_pos he]
    exact unknown_notGray l
  · rw [if_neg he]
    simp only []
    by_cases hone : (extractLineageRoot l).nameParts.length = 1
    · rw [if_pos hone]
      have hgood := basePango_good (extractLineageRoot l).rootLineage
      unfold rootPrevalenceAdjusted at hbr
      rw [if_neg hne, if_neg he, if_pos hone] at hbr
      rcases dat with _ | ld
      · exact rootFall_notGray hgood
      · cases hf : ld.hierarchyData.find? (fun n => n.name = l) with
        | none =>
          simp only [hf]
          exact rootFall_notGray hgood
        | some rootNode =>
          simp only [hf]
          simp only [hf] at hbr
          have htot : ¬ (0 < effTotal ld) := by simpa using hbr
          rw [if_neg htot]
          exact rootFall_notGray hgood
    · rw [if_neg hone]
      exact grayGuard_notGray l _

/-- **C9** witness: the name `"B"` with no prevalence data is non-empty,
avoids the prevalence-adjusted branch, and gets a non-gray colour. -/
theorem generate_not_gray_witness :
    ("B".data ≠ [] ∧ rootPrevalenceAdjusted "B".data none = false) ∧
    isGrayishC (generatePangoLineageColor "B".data none) = false :=
  ⟨⟨by decide, by decide⟩, generate_not_gray "B".data none (by decide) (by decide)⟩

/-- **C9** counterexample: on the excluded branch the claimed property fails.
The real, non-empty name `"BH"` with hierarchy data listing it at prevalence
`0/100` takes the root-level prevalence-adjusted branch and receives
`(82, 114, 122)`, which the code's own `isGrayish` classifies as gray
(standard deviation `≈ 17.3 < 25`), so the spec's "never gray for a real
name, on every branch" is false as stated. -/
theorem generate_gray_root_cex :
    "BH".data ≠ [] ∧
    rootPrevalenceAdjusted "BH".data (some ⟨[HNode.mk "BH".data 0 []], some 100⟩) = true ∧
    generatePangoLineageColor "BH".data
      (some ⟨[HNode.mk "BH".data 0 []], some 100⟩) = (82, 114, 122) ∧
    isGrayishC (generatePangoLineageColor "BH".data
      (some ⟨[HNode.mk "BH".data 0 []], some 100⟩)) = true := by
  refine ⟨by decide, by decide, by decide, by decide⟩
